import Mathlib

/-!
Shallow embedding of the data-acquisition core of `taiwan_stock_analysis.py`
(the same aggregation code appears verbatim in `taiwan_stock_analysis_upgrade.py`).

Modelling conventions:
* Calendar dates are integers counting days from a fixed Monday epoch, so that
  `d % 7` is exactly Python's `date.weekday()` (Monday = 0 … Sunday = 6).
  The `strftime` formats used by the scripts are injective on dates, so a date
  value stands for its formatted string.
* The network is an oracle: the n-th HTTP request issued in a run receives the
  outcome `world n`.  An outcome is a parsed success payload, the explicit
  "no data" status (`stat` containing the apology phrase), or a transient
  failure (an exception or any other unexpected `stat`).
* `random.uniform a b` draws are an oracle stream `rng`; `time.sleep` calls are
  recorded in the state so that timing claims can be stated about them.
* Volumes are integers, prices are rationals.
-/

namespace Stock

/-- Python's `date.weekday()`: with the epoch on a Monday, day number `d` has
weekday `d % 7` (Monday = 0, …, Saturday = 5, Sunday = 6). -/
def weekday (d : ℤ) : ℤ := d % 7

/-- Stepping a day back decrements the weekday index when it is positive. -/
theorem emod7_sub_one (d : ℤ) (h : 1 ≤ d % 7) :
    (d - 1) % 7 = d % 7 - 1 := by
  have h1 : d % 7 < 7 := Int.emod_lt_of_pos d (by norm_num)
  rw [Int.sub_emod]
  rw [show (1 : ℤ) % 7 = 1 from rfl]
  exact Int.emod_eq_of_lt (by omega) (by omega)

/-- The `while current_date.weekday() >= 5: current_date -= timedelta(days=1)`
loop of `get_valid_date` (taiwan_stock_analysis.py lines 34-35). -/
def adjustToWeekday (d : ℤ) : ℤ :=
  if 5 ≤ d % 7 then adjustToWeekday (d - 1) else d
termination_by (d % 7).toNat
decreasing_by
  rename_i h
  have h2 : (d - 1) % 7 = d % 7 - 1 := emod7_sub_one d (by omega)
  omega

/-- `get_valid_date(days_back)` (taiwan_stock_analysis.py lines 32-36):
`today − days_back`, stepped back to the preceding weekday if it falls on a
weekend.  `today` is `datetime.now().date()` made explicit. -/
def get_valid_date (today : ℤ) (days_back : ℤ) : ℤ :=
  adjustToWeekday (today - days_back)

/-- Closed form of the weekday-adjustment loop: it subtracts 1 on a Saturday,
2 on a Sunday, and nothing on a weekday. -/
theorem adjustToWeekday_eq (d : ℤ) :
    adjustToWeekday d =
      if d % 7 = 5 then d - 1 else if d % 7 = 6 then d - 2 else d := by
  have h0 : 0 ≤ d % 7 := Int.emod_nonneg d (by norm_num)
  have h1 : d % 7 < 7 := Int.emod_lt_of_pos d (by norm_num)
  rcases lt_or_le (d % 7) 5 with h | h
  · rw [adjustToWeekday, if_neg (by omega)]
    rw [if_neg (by omega), if_neg (by omega)]
  · rcases (by omega : d % 7 = 5 ∨ d % 7 = 6) with h5 | h6
    · have e1 : (d - 1) % 7 = 4 := by
        rw [emod7_sub_one d (by omega)]; omega
      rw [adjustToWeekday, if_pos (by omega),
          adjustToWeekday, if_neg (by omega), if_pos h5]
    · have e1 : (d - 1) % 7 = 5 := by
        rw [emod7_sub_one d (by omega)]; omega
      have e2 : (d - 1 - 1) % 7 = 4 := by
        rw [emod7_sub_one (d - 1) (by omega)]; omega
      rw [adjustToWeekday, if_pos (by omega),
          adjustToWeekday, if_pos (by omega),
          adjustToWeekday, if_neg (by omega), if_neg (by omega), if_pos h6,
          show d - 1 - 1 = d - 2 by ring]

end Stock

namespace Stock

/-- **C5.** `get_valid_date(daysBack)` returns `today − daysBack` when that day
is a weekday, and otherwise the nearest preceding weekday, reached by stepping
back one day at a time while the day is Saturday or Sunday; it is a pure
function of `today` and the offset (it is a Lean function, so determinism is by
construction). -/
theorem get_valid_date_spec (today daysBack : ℤ) :
    (weekday (today - daysBack) < 5 →
        get_valid_date today daysBack = today - daysBack) ∧
    (5 ≤ weekday (today - daysBack) →
        get_valid_date today daysBack < today - daysBack ∧
        weekday (get_valid_date today daysBack) < 5 ∧
        ∀ e : ℤ, get_valid_date today daysBack < e → e ≤ today - daysBack →
          5 ≤ weekday e) := by
  set d := today - daysBack with hd
  have h0 : 0 ≤ d % 7 := Int.emod_nonneg d (by norm_num)
  have h1 : d % 7 < 7 := Int.emod_lt_of_pos d (by norm_num)
  have heq := adjustToWeekday_eq d
  constructor
  · intro hwk
    unfold weekday at hwk
    rw [get_valid_date, ← hd, heq, if_neg (by omega), if_neg (by omega)]
  · intro hwk
    unfold weekday at hwk
    rw [get_valid_date, ← hd, heq]
    rcases (by omega : d % 7 = 5 ∨ d % 7 = 6) with h5 | h6
    · rw [if_pos h5]
      refine ⟨by omega, ?_, ?_⟩
      · unfold weekday
        rw [emod7_sub_one d (by omega)]
        omega
      · intro e he1 he2
        unfold weekday
        have : e = d := by omega
        rw [this]
        omega
    · rw [if_neg (by omega), if_pos h6]
      have e1 : (d - 1) % 7 = 5 := by
        rw [emod7_sub_one d (by omega)]; omega
      refine ⟨by omega, ?_, ?_⟩
      · unfold weekday
        rw [show d - 2 = d - 1 - 1 by ring, emod7_sub_one (d - 1) (by omega)]
        omega
      · intro e he1 he2
        unfold weekday
        have he : e = d - 1 ∨ e = d := by omega
        rcases he with he | he <;> rw [he] <;> omega

/-- Witness for `get_valid_date_spec`: day 6 of the epoch week is a Sunday and
the walker maps it to the preceding Friday, day 4. -/
theorem get_valid_date_spec_witness :
    get_valid_date 6 0 < 6 ∧ weekday (get_valid_date 6 0) < 5 :=
  ⟨((get_valid_date_spec 6 0).2 (by decide)).1,
   ((get_valid_date_spec 6 0).2 (by decide)).2.1⟩

end Stock

namespace Stock

/-- First-match association-list lookup: the semantics of Python's
`dict.__getitem__` / `in`, with fresh bindings consed at the front. -/
def lookupKV {κ β : Type} [DecidableEq κ] (m : List (κ × β)) (k : κ) : Option β :=
  match m with
  | [] => none
  | p :: rest => if p.1 = k then some p.2 else lookupKV rest k

/-- One parsed row of the T86 institutional table: stock identifier with
(foreign-investor buy shares, sell shares)
(taiwan_stock_analysis.py lines 91-94). -/
abbrev DayData := List (String × ℤ × ℤ)

/-- Outcome of one HTTP request to the T86 endpoint, as classified by
`fetch_stock_data` (lines 85-101): `stat == 'OK'` with parsed rows, a `stat`
containing the apology phrase `很抱歉` (confirmed no data), or anything else —
an exception or an unexpected `stat` — which the loop retries. -/
inductive FetchOutcome : Type
  | good (rows : DayData)
  | noData
  | err
deriving DecidableEq

/-- Observable network state threaded through the fetch code: the per-run day
cache (`cache`), the number of HTTP requests issued so far (`calls`), and the
durations of all `time.sleep` calls performed (`sleeps`). -/
structure NetSt : Type where
  cache : List (ℤ × DayData)
  calls : ℕ
  sleeps : List ℚ
deriving DecidableEq

/-- The retry `for attempt in range(max_retries)` loop of `fetch_stock_data`
(lines 81-104), with the remaining attempt count as the recursion argument.
Each attempt issues one request (outcome `world st.calls`); a parsed success
inserts the rows into the cache and returns them; the apology status returns
`none` at once; a transient error sleeps `random.uniform(10, 20)` — the next
value of the `rng` stream — unless this was the last attempt, then retries. -/
def fetchAttempts (world : ℕ → FetchOutcome) (rng : ℕ → ℚ) (date : ℤ) :
    ℕ → NetSt → Option DayData × NetSt
  | 0, st => (none, st)
  | n + 1, st =>
    let st1 : NetSt := { st with calls := st.calls + 1 }
    match world st.calls with
    | .good rows => (some rows, { st1 with cache := (date, rows) :: st1.cache })
    | .noData => (none, st1)
    | .err =>
      match n with
      | 0 => (none, st1)
      | m + 1 =>
        fetchAttempts world rng date (m + 1)
          { st1 with sleeps := st1.sleeps ++ [rng st1.sleeps.length] }

/-- `fetch_stock_data(date, cache)` (lines 75-104): return the cached value on
a cache hit, otherwise run up to `max_retries = 10` attempts. -/
def fetch_stock_data (world : ℕ → FetchOutcome) (rng : ℕ → ℚ) (date : ℤ)
    (st : NetSt) : Option DayData × NetSt :=
  match lookupKV st.cache date with
  | some v => (some v, st)
  | none => fetchAttempts world rng date 10 st

/-- A transiently failing attempt with at least two attempts left just burns
one request, records one sleep, and continues. -/
theorem fetchAttempts_err_step (world : ℕ → FetchOutcome) (rng : ℕ → ℚ)
    (date : ℤ) (n : ℕ) (st : NetSt) (hw : world st.calls = .err) :
    fetchAttempts world rng date (n + 2) st =
      fetchAttempts world rng date (n + 1)
        { st with calls := st.calls + 1,
                  sleeps := st.sleeps ++ [rng st.sleeps.length] } := by
  rw [fetchAttempts]
  simp only [hw]

/-- A successful attempt leaves the just-fetched rows at the front of the
cache, so a later lookup of the same date is a hit returning the same rows. -/
theorem fetchAttempts_good_cached (world : ℕ → FetchOutcome) (rng : ℕ → ℚ)
    (date : ℤ) :
    ∀ (f : ℕ) (st : NetSt) (rows : DayData),
      (fetchAttempts world rng date f st).1 = some rows →
      lookupKV (fetchAttempts world rng date f st).2.cache date = some rows
  | 0, st, rows => by
    intro h
    rw [fetchAttempts] at h
    exact absurd h (by simp)
  | 1, st, rows => by
    intro h
    rw [fetchAttempts] at h ⊢
    cases hw : world st.calls with
    | good r =>
      rw [hw] at h
      simp at h
      subst h
      simp [lookupKV]
    | noData =>
      rw [hw] at h
      simp at h
    | err =>
      rw [hw] at h
      simp at h
  | (n + 2), st, rows => by
    intro h
    cases hw : world st.calls with
    | good r =>
      rw [fetchAttempts] at h ⊢
      rw [hw] at h ⊢
      simp at h
      subst h
      simp [lookupKV]
    | noData =>
      rw [fetchAttempts] at h
      rw [hw] at h
      simp at h
    | err =>
      rw [fetchAttempts_err_step world rng date n st hw] at h ⊢
      exact fetchAttempts_good_cached world rng date (n + 1) _ rows h

/-- If the retry loop gives the date up, the cache is unchanged: neither the
confirmed-absence return nor retry exhaustion inserts an entry. -/
theorem fetchAttempts_none_cache (world : ℕ → FetchOutcome) (rng : ℕ → ℚ)
    (date : ℤ) :
    ∀ (f : ℕ) (st : NetSt),
      (fetchAttempts world rng date f st).1 = none →
      (fetchAttempts world rng date f st).2.cache = st.cache
  | 0, st => by
    intro _
    rw [fetchAttempts]
  | 1, st => by
    intro h
    rw [fetchAttempts] at h ⊢
    cases hw : world st.calls with
    | good r =>
      rw [hw] at h
      simp at h
    | noData =>
      rfl
    | err =>
      rfl
  | (n + 2), st => by
    intro h
    cases hw : world st.calls with
    | good r =>
      rw [fetchAttempts] at h
      rw [hw] at h
      simp at h
    | noData =>
      rw [fetchAttempts]
      rw [hw]
    | err =>
      rw [fetchAttempts_err_step world rng date n st hw] at h ⊢
      exact fetchAttempts_none_cache world rng date (n + 1) _ h

/-- Characterization of the absence result: the retry loop returns `none`
exactly when the first non-transient outcome within its attempt budget is the
explicit no-data status, or every attempt in the budget fails transiently. -/
theorem fetchAttempts_none_iff (world : ℕ → FetchOutcome) (rng : ℕ → ℚ)
    (date : ℤ) :
    ∀ (f : ℕ) (st : NetSt),
      (fetchAttempts world rng date f st).1 = none ↔
        ((∃ k, k < f ∧ world (st.calls + k) = .noData ∧
            ∀ j, j < k → world (st.calls + j) = .err) ∨
          (∀ j, j < f → world (st.calls + j) = .err))
  | 0, st => by
    rw [fetchAttempts]
    constructor
    · intro _
      exact Or.inr fun j hj => absurd hj (by omega)
    · intro _
      rfl
  | 1, st => by
    rw [fetchAttempts]
    cases hw : world st.calls with
    | good r =>
      constructor
      · intro h
        exact absurd h (by simp)
      · rintro (⟨k, hk, hnd, hprev⟩ | hall)
        · have hk0 : k = 0 := by omega
          rw [hk0, Nat.add_zero, hw] at hnd
          exact absurd hnd (by simp)
        · have h0 := hall 0 (by omega)
          rw [Nat.add_zero, hw] at h0
          exact absurd h0 (by simp)
    | noData =>
      constructor
      · intro _
        exact Or.inl ⟨0, by omega, by rwa [Nat.add_zero],
          fun j hj => absurd hj (by omega)⟩
      · intro _
        rfl
    | err =>
      constructor
      · intro _
        refine Or.inr fun j hj => ?_
        have hj0 : j = 0 := by omega
        rwa [hj0, Nat.add_zero]
      · intro _
        rfl
  | (n + 2), st => by
    cases hw : world st.calls with
    | good r =>
      rw [fetchAttempts]
      rw [hw]
      constructor
      · intro h
        exact absurd h (by simp)
      · rintro (⟨k, hk, hnd, hprev⟩ | hall)
        · rcases k with _ | k
          · rw [Nat.add_zero, hw] at hnd
            exact absurd hnd (by simp)
          · have h0 := hprev 0 (by omega)
            rw [Nat.add_zero, hw] at h0
            exact absurd h0 (by simp)
        · have h0 := hall 0 (by omega)
          rw [Nat.add_zero, hw] at h0
          exact absurd h0 (by simp)
    | noData =>
      rw [fetchAttempts]
      rw [hw]
      constructor
      · intro _
        exact Or.inl ⟨0, by omega, by rwa [Nat.add_zero],
          fun j hj => absurd hj (by omega)⟩
      · intro _
        rfl
    | err =>
      rw [fetchAttempts_err_step world rng date n st hw,
          fetchAttempts_none_iff world rng date (n + 1)]
      constructor
      · rintro (⟨k, hk, hnd, hprev⟩ | hall)
        · refine Or.inl ⟨k + 1, by omega, ?_, ?_⟩
          · rwa [show st.calls + (k + 1) = st.calls + 1 + k by ring]
          · intro j hj
            rcases j with _ | j
            · rwa [Nat.add_zero]
            · have := hprev j (by omega)
              rwa [show st.calls + (j + 1) = st.calls + 1 + j by ring]
        · refine Or.inr fun j hj => ?_
          rcases j with _ | j
          · rwa [Nat.add_zero]
          · have := hall j (by omega)
            rwa [show st.calls + (j + 1) = st.calls + 1 + j by ring]
      · rintro (⟨k, hk, hnd, hprev⟩ | hall)
        · rcases k with _ | k
          · rw [Nat.add_zero, hw] at hnd
            exact absurd hnd (by simp)
          · refine Or.inl ⟨k, by omega, ?_, ?_⟩
            · rwa [show st.calls + 1 + k = st.calls + (k + 1) by ring]
            · intro j hj
              have := hprev (j + 1) (by omega)
              rwa [show st.calls + (j + 1) = st.calls + 1 + j by ring] at this
        · refine Or.inr fun j hj => ?_
          have := hall (j + 1) (by omega)
          rwa [show st.calls + (j + 1) = st.calls + 1 + j by ring] at this

/-- Counting lemma for the confirmed-absence short circuit: if the first `k`
attempts fail transiently and attempt `k` reports no data, the loop stops after
`k + 1` requests and `k` inter-attempt sleeps. -/
theorem fetchAttempts_noData_count (world : ℕ → FetchOutcome) (rng : ℕ → ℚ)
    (date : ℤ) :
    ∀ (f : ℕ) (st : NetSt) (k : ℕ), k < f →
      world (st.calls + k) = .noData →
      (∀ j, j < k → world (st.calls + j) = .err) →
      (fetchAttempts world rng date f st).2.calls = st.calls + k + 1 ∧
        (fetchAttempts world rng date f st).2.sleeps.length =
          st.sleeps.length + k
  | 0, st, k => by
    intro hk _ _
    exact absurd hk (by omega)
  | 1, st, k => by
    intro hk hnd _
    have hk0 : k = 0 := by omega
    subst hk0
    rw [Nat.add_zero] at hnd
    rw [fetchAttempts]
    rw [hnd]
    exact ⟨rfl, rfl⟩
  | (n + 2), st, k => by
    intro hk hnd hprev
    rcases k with _ | k
    · rw [Nat.add_zero] at hnd
      rw [fetchAttempts]
      rw [hnd]
      exact ⟨rfl, rfl⟩
    · have hw : world st.calls = .err := by
        have := hprev 0 (by omega)
        rwa [Nat.add_zero] at this
      rw [fetchAttempts_err_step world rng date n st hw]
      have ih := fetchAttempts_noData_count world rng date (n + 1)
        { st with calls := st.calls + 1,
                  sleeps := st.sleeps ++ [rng st.sleeps.length] }
        k (by omega)
        (by rwa [show st.calls + 1 + k = st.calls + (k + 1) by ring])
        (fun j hj => by
          have := hprev (j + 1) (by omega)
          rwa [show st.calls + (j + 1) = st.calls + 1 + j by ring] at this)
      simp only [List.length_append, List.length_singleton] at ih
      refine ⟨?_, ?_⟩
      · rw [ih.1]
        ring
      · rw [ih.2]
        ring

/-- Counting lemma for retry exhaustion: if every attempt in a budget of
`f ≥ 1` fails transiently, the loop issues `f` requests and sleeps `f − 1`
times before giving up. -/
theorem fetchAttempts_allErr_count (world : ℕ → FetchOutcome) (rng : ℕ → ℚ)
    (date : ℤ) :
    ∀ (f : ℕ) (st : NetSt), 1 ≤ f →
      (∀ j, j < f → world (st.calls + j) = .err) →
      (fetchAttempts world rng date f st).2.calls = st.calls + f ∧
        (fetchAttempts world rng date f st).2.sleeps.length =
          st.sleeps.length + (f - 1)
  | 0, st => by
    intro h _
    exact absurd h (by omega)
  | 1, st => by
    intro _ hall
    have hw : world st.calls = .err := by
      have := hall 0 (by omega)
      rwa [Nat.add_zero] at this
    rw [fetchAttempts]
    rw [hw]
    exact ⟨rfl, rfl⟩
  | (n + 2), st => by
    intro _ hall
    have hw : world st.calls = .err := by
      have := hall 0 (by omega)
      rwa [Nat.add_zero] at this
    rw [fetchAttempts_err_step world rng date n st hw]
    have ih := fetchAttempts_allErr_count world rng date (n + 1)
      { st with calls := st.calls + 1,
                sleeps := st.sleeps ++ [rng st.sleeps.length] }
      (by omega)
      (fun j hj => by
        have := hall (j + 1) (by omega)
        rwa [show st.calls + (j + 1) = st.calls + 1 + j by ring] at this)
    simp only [List.length_append, List.length_singleton] at ih
    refine ⟨?_, ?_⟩
    · rw [ih.1]
      ring
    · rw [ih.2]
      omega

/-- Every sleep recorded by the retry loop is either inherited from the
starting state or a fresh draw from the `random.uniform(10, 20)` stream. -/
theorem fetchAttempts_sleeps_from_rng (world : ℕ → FetchOutcome) (rng : ℕ → ℚ)
    (date : ℤ) :
    ∀ (f : ℕ) (st : NetSt) (q : ℚ),
      q ∈ (fetchAttempts world rng date f st).2.sleeps →
      q ∈ st.sleeps ∨ ∃ i, q = rng i
  | 0, st, q => by
    intro h
    rw [fetchAttempts] at h
    exact Or.inl h
  | 1, st, q => by
    intro h
    rw [fetchAttempts] at h
    cases hw : world st.calls with
    | good r =>
      rw [hw] at h
      exact Or.inl h
    | noData =>
      rw [hw] at h
      exact Or.inl h
    | err =>
      rw [hw] at h
      exact Or.inl h
  | (n + 2), st, q => by
    intro h
    cases hw : world st.calls with
    | good r =>
      rw [fetchAttempts] at h
      rw [hw] at h
      exact Or.inl h
    | noData =>
      rw [fetchAttempts] at h
      rw [hw] at h
      exact Or.inl h
    | err =>
      rw [fetchAttempts_err_step world rng date n st hw] at h
      rcases fetchAttempts_sleeps_from_rng world rng date (n + 1) _ q h with
        hmem | hrng
      · rcases List.mem_append.mp hmem with hl | hr
        · exact Or.inl hl
        · exact Or.inr ⟨st.sleeps.length, by simpa using hr⟩
      · exact Or.inr hrng

/-- **C2 (amended).** Cache idempotence of `fetch_stock_data`, as the code
actually provides it: (a) on a cache hit the cached value is returned at once,
with no network request and no state change; (b) once a call has returned a
dataset, a repeated call for the same date is a pure cache hit returning the
identical data and issuing no further network requests; (c) when the date is
uncached and the very first attempt succeeds, the two calls together issue
exactly one network request.  (The claim's unconditional "exactly one network
call in total" is refuted by `fetch_stock_data_twice_not_one_call`: each retry
attempt of the first call is its own network call, and a null first result is
not cached.) -/
theorem fetch_stock_data_repeat_cached (world : ℕ → FetchOutcome)
    (rng : ℕ → ℚ) (date : ℤ) (st : NetSt) :
    (∀ v, lookupKV st.cache date = some v →
        fetch_stock_data world rng date st = (some v, st)) ∧
    (∀ rows st1, fetch_stock_data world rng date st = (some rows, st1) →
        fetch_stock_data world rng date st1 = (some rows, st1)) ∧
    (lookupKV st.cache date = none → ∀ rows, world st.calls = .good rows →
        (fetch_stock_data world rng date st).1 = some rows ∧
        (fetch_stock_data world rng date st).2.calls = st.calls + 1 ∧
        (fetch_stock_data world rng date
            (fetch_stock_data world rng date st).2).1 = some rows ∧
        (fetch_stock_data world rng date
            (fetch_stock_data world rng date st).2).2.calls = st.calls + 1) := by
  refine ⟨?_, ?_, ?_⟩
  · intro v hv
    rw [fetch_stock_data, hv]
  · intro rows st1 hcall
    cases hc : lookupKV st.cache date with
    | some v =>
      rw [fetch_stock_data, hc] at hcall
      have hv : v = rows := by
        have := congrArg Prod.fst hcall
        simpa using this
      have hst : st = st1 := by
        have := congrArg Prod.snd hcall
        simpa using this
      rw [fetch_stock_data, ← hst, hc, hv]
    | none =>
      rw [fetch_stock_data, hc] at hcall
      have hcall2 : fetchAttempts world rng date 10 st = (some rows, st1) := hcall
      have h1 : (fetchAttempts world rng date 10 st).1 = some rows := by
        rw [hcall2]
      have h2 : (fetchAttempts world rng date 10 st).2 = st1 := by
        rw [hcall2]
      have hcached := fetchAttempts_good_cached world rng date 10 st rows h1
      rw [h2] at hcached
      rw [fetch_stock_data, hcached]
  · intro hc rows hw
    have hfe : fetch_stock_data world rng date st =
        (some rows, { st with cache := (date, rows) :: st.cache,
                              calls := st.calls + 1 }) := by
      rw [fetch_stock_data, hc, fetchAttempts, hw]
    rw [hfe]
    refine ⟨rfl, rfl, ?_, ?_⟩ <;>
      rw [show fetch_stock_data world rng date
            { st with cache := (date, rows) :: st.cache,
                      calls := st.calls + 1 } =
          (some rows, { st with cache := (date, rows) :: st.cache,
                                calls := st.calls + 1 }) by
        rw [fetch_stock_data]
        simp [lookupKV]]

/-- Witness for `fetch_stock_data_repeat_cached`: with an uncached date whose
first request succeeds, both calls return the fetched rows and the two calls
together issue exactly one network request. -/
theorem fetch_stock_data_repeat_cached_witness :
    (fetch_stock_data (fun _ => .good [("2330", (5, 3))]) (fun _ => 15) 4
        ⟨[], 0, []⟩).1 = some [("2330", (5, 3))] ∧
    (fetch_stock_data (fun _ => .good [("2330", (5, 3))]) (fun _ => 15) 4
        (fetch_stock_data (fun _ => .good [("2330", (5, 3))]) (fun _ => 15) 4
          ⟨[], 0, []⟩).2).2.calls = 1 := by
  have h := (fetch_stock_data_repeat_cached (fun _ => .good [("2330", (5, 3))])
    (fun _ => 15) 4 ⟨[], 0, []⟩).2.2 rfl [("2330", (5, 3))] rfl
  exact ⟨h.1, h.2.2.2⟩

/-- **C2 (counterexample).** The claim "calling `fetch_stock_data(d, cache)` a
second time after a first call for `d` issues exactly one network call in
total across both calls" is false: when the first request fails transiently
and the retry succeeds, the first call alone issues two network requests. -/
theorem fetch_stock_data_twice_not_one_call :
    ¬ ((fetch_stock_data (fun n => if n = 0 then .err else .good [("2330", (5, 3))])
          (fun _ => 15) 4
          (fetch_stock_data (fun n => if n = 0 then .err else .good [("2330", (5, 3))])
            (fun _ => 15) 4 ⟨[], 0, []⟩).2).2.calls = 1) := by
  intro h
  rw [show (fetch_stock_data (fun n => if n = 0 then .err else .good [("2330", (5, 3))])
        (fun _ => 15) 4
        (fetch_stock_data (fun n => if n = 0 then .err else .good [("2330", (5, 3))])
          (fun _ => 15) 4 ⟨[], 0, []⟩).2).2.calls = 2 from rfl] at h
  exact absurd h (by decide)

/-- **C4.** With the date not in the cache, `fetch_stock_data` returns the
absence sentinel `none` exactly when the endpoint reports the explicit no-data
status (first non-transient outcome) or all `10` attempts fail transiently;
in either case no cache entry is inserted; the no-data status returns
immediately after its request with no further retries; exhaustion issues all
10 requests with the 9 inter-attempt sleeps; and every sleep performed is a
`random.uniform(10, 20)` draw, hence in `[10, 20]`. -/
theorem fetch_stock_data_absence_spec (world : ℕ → FetchOutcome)
    (rng : ℕ → ℚ) (date : ℤ) (st : NetSt)
    (hmiss : lookupKV st.cache date = none) :
    ((fetch_stock_data world rng date st).1 = none ↔
        ((∃ k, k < 10 ∧ world (st.calls + k) = .noData ∧
            ∀ j, j < k → world (st.calls + j) = .err) ∨
          (∀ j, j < 10 → world (st.calls + j) = .err))) ∧
    ((fetch_stock_data world rng date st).1 = none →
        (fetch_stock_data world rng date st).2.cache = st.cache) ∧
    (∀ k, k < 10 → world (st.calls + k) = .noData →
        (∀ j, j < k → world (st.calls + j) = .err) →
        (fetch_stock_data world rng date st).2.calls = st.calls + k + 1 ∧
          (fetch_stock_data world rng date st).2.sleeps.length =
            st.sleeps.length + k) ∧
    ((∀ j, j < 10 → world (st.calls + j) = .err) →
        (fetch_stock_data world rng date st).2.calls = st.calls + 10 ∧
          (fetch_stock_data world rng date st).2.sleeps.length =
            st.sleeps.length + 9) ∧
    ((∀ i, 10 ≤ rng i ∧ rng i ≤ 20) →
        ∀ q ∈ (fetch_stock_data world rng date st).2.sleeps,
          q ∈ st.sleeps ∨ (10 ≤ q ∧ q ≤ 20)) := by
  rw [fetch_stock_data, hmiss]
  refine ⟨fetchAttempts_none_iff world rng date 10 st,
    fetchAttempts_none_cache world rng date 10 st, ?_, ?_, ?_⟩
  · intro k hk hnd hprev
    exact fetchAttempts_noData_count world rng date 10 st k hk hnd hprev
  · intro hall
    have h := fetchAttempts_allErr_count world rng date 10 st (by omega) hall
    exact ⟨h.1, by rw [h.2]⟩
  · intro hr q hq
    rcases fetchAttempts_sleeps_from_rng world rng date 10 st q hq with hmem | ⟨i, hi⟩
    · exact Or.inl hmem
    · exact Or.inr (by rw [hi]; exact hr i)

/-- Witness for `fetch_stock_data_absence_spec`: when every request fails
transiently, the call returns `none` after 10 requests and 9 sleeps, leaving
the cache untouched. -/
theorem fetch_stock_data_absence_spec_witness :
    (fetch_stock_data (fun _ => .err) (fun _ => 15) 4 ⟨[], 0, []⟩).1 = none ∧
    (fetch_stock_data (fun _ => .err) (fun _ => 15) 4 ⟨[], 0, []⟩).2.cache = [] ∧
    (fetch_stock_data (fun _ => .err) (fun _ => 15) 4 ⟨[], 0, []⟩).2.calls = 10 ∧
    (fetch_stock_data (fun _ => .err) (fun _ => 15) 4 ⟨[], 0, []⟩).2.sleeps.length = 9 := by
  have h := fetch_stock_data_absence_spec (fun _ => .err) (fun _ => 15) 4
    ⟨[], 0, []⟩ rfl
  have hnone : (fetch_stock_data (fun _ => .err) (fun _ => 15) 4 ⟨[], 0, []⟩).1 = none :=
    (h.1).mpr (Or.inr fun j _ => rfl)
  have hcnt := h.2.2.2.1 (fun j _ => rfl)
  exact ⟨hnone, h.2.1 hnone, hcnt.1, hcnt.2⟩

end Stock

namespace Stock

/-- `stock_buys[stock_id] = stock_buys.get(stock_id, 0) + buy_amount`
(taiwan_stock_analysis.py line 157): update the first binding of the key in
place, or append a fresh binding at the end (Python dicts keep insertion
order). -/
def dictAdd (m : List (String × ℤ)) (s : String) (v : ℤ) : List (String × ℤ) :=
  match lookupKV m s with
  | some _ => m.map (fun p => if p.1 = s then (p.1, p.2 + v) else p)
  | none => m ++ [(s, v)]

/-- `if stock_id not in failed_dates: failed_dates[stock_id] = []`
(lines 159-160). -/
def ensureKey (m : List (String × List ℤ)) (s : String) :
    List (String × List ℤ) :=
  match lookupKV m s with
  | some _ => m
  | none => m ++ [(s, [])]

/-- `if stock_id not in failed_dates: failed_dates[stock_id] = []` followed by
`failed_dates[stock_id].append(d)` (lines 168-170). -/
def appendFail (m : List (String × List ℤ)) (s : String) (d : ℤ) :
    List (String × List ℤ) :=
  match lookupKV m s with
  | some _ => m.map (fun p => if p.1 = s then (p.1, p.2 ++ [d]) else p)
  | none => m ++ [(s, [d])]

/-- `set(stock_buys.keys()) | set(stock_sells.keys())` (lines 167, 181);
Python's set iteration order is unspecified, modelled as first-occurrence
order of the two key lists. -/
def unionKeys (b sl : List (String × ℤ)) : List String :=
  (b.map Prod.fst ++ sl.map Prod.fst).dedup

/-- The `for stock_id, (buy_amount, sell_amount) in data.items()` body
(lines 156-160), folded over one day's rows. -/
def mergeRows
    (acc : List (String × ℤ) × List (String × ℤ) × List (String × List ℤ))
    (rows : DayData) :
    List (String × ℤ) × List (String × ℤ) × List (String × List ℤ) :=
  rows.foldl
    (fun a row =>
      (dictAdd a.1 row.1 row.2.1, dictAdd a.2.1 row.1 row.2.2,
        ensureKey a.2.2 row.1))
    acc

/-- Ghost observation of one loop iteration: the raw walk date
(`current_date`), the weekday-adjusted date string actually queried
(`date_str`), and the fetch result.  Not part of the program state; recorded
so that theorems can speak about the history of the run. -/
structure IterLog : Type where
  rawDate : ℤ
  qDate : ℤ
  res : Option DayData
deriving DecidableEq

/-- The local state of `get_top_stocks` (lines 140-147), plus the network
state, the durations of the inter-iteration sleeps (line 172), and the ghost
iteration log. -/
structure AggSt : Type where
  stock_buys : List (String × ℤ)
  stock_sells : List (String × ℤ)
  failed_dates : List (String × List ℤ)
  start_date : ℤ
  days_with_data : ℕ
  current_date : ℤ
  net : NetSt
  loopSleeps : List ℚ
  log : List IterLog
deriving DecidableEq

/-- One iteration of the aggregation loop body (lines 152-172): query the
weekday-adjusted date `get_valid_date((end_date - current_date).days)` through
the cached fetcher; on data, merge every row into the cumulative totals,
bump `days_with_data` and move `start_date`; on absence, append the raw
`current_date` to the failed-dates list of every stock seen so far; then step
`current_date` back one day and sleep `random.uniform(5, 10)`. -/
def stepAgg (today end_date : ℤ) (world : ℕ → FetchOutcome)
    (rng rng2 : ℕ → ℚ) (st : AggSt) : AggSt :=
  let date_str := get_valid_date today (end_date - st.current_date)
  let fr := fetch_stock_data world rng date_str st.net
  let st1 := { st with net := fr.2,
                       log := st.log ++
                         [(⟨st.current_date, date_str, fr.1⟩ : IterLog)] }
  let st2 :=
    match fr.1 with
    | some rows =>
      let acc := mergeRows (st1.stock_buys, st1.stock_sells, st1.failed_dates)
        rows
      { st1 with stock_buys := acc.1, stock_sells := acc.2.1,
                 failed_dates := acc.2.2,
                 days_with_data := st1.days_with_data + 1,
                 start_date := st1.current_date }
    | none =>
      let fd := (unionKeys st1.stock_buys st1.stock_sells).foldl
        (fun m k => appendFail m k st1.current_date) st1.failed_dates
      { st1 with failed_dates := fd }
  { st2 with current_date := st.current_date - 1,
             loopSleeps := st.loopSleeps ++ [rng2 st.loopSleeps.length] }

/-- The `while days_with_data < num_days and (end_date - current_date).days
< 30` loop (lines 151-172).  `current_date` decreases by exactly one per
iteration, so the guard's second conjunct caps the iteration count: the loop
is run with fuel `30 - (end_date - current_date)`, which the guard keeps
non-zero while it holds (`runAgg_stops` below), so the fuel never cuts the
while loop short. -/
def runAgg (today end_date : ℤ) (num_days : ℕ) (world : ℕ → FetchOutcome)
    (rng rng2 : ℕ → ℚ) : ℕ → AggSt → AggSt
  | 0, st => st
  | fuel + 1, st =>
    if st.days_with_data < num_days ∧ end_date - st.current_date < 30 then
      runAgg today end_date num_days world rng rng2 fuel
        (stepAgg today end_date world rng rng2 st)
    else st

/-- The initial state of `get_top_stocks` (lines 140-147): empty accumulators,
`end_date = yesterday`, `start_date = end_date`, empty cache,
`days_with_data = 0`, `current_date = end_date`. -/
def initAgg (end_date : ℤ) : AggSt :=
  { stock_buys := [], stock_sells := [], failed_dates := [],
    start_date := end_date, days_with_data := 0, current_date := end_date,
    net := ⟨[], 0, []⟩, loopSleeps := [], log := [] }

/-- The full aggregation phase of `get_top_stocks`: the loop run from the
initial state, with `end_date = today - 1` and fuel 30 (the exact bound the
guard enforces, since `end_date - current_date` starts at 0). -/
def aggLoop (today : ℤ) (num_days : ℕ) (world : ℕ → FetchOutcome)
    (rng rng2 : ℕ → ℚ) : AggSt :=
  runAgg today (today - 1) num_days world rng rng2 30 (initAgg (today - 1))

/-- One ranked tuple `(stock_id, buys, sells, failed_dates)` (lines 184-187). -/
abbrev RankedEntry := String × ℤ × ℤ × List ℤ

/-- Stable insertion keeping the list sorted by descending buy volume: the
element goes in front of the first entry with strictly smaller buy volume.
This realizes Python's stable `sorted(..., key=lambda x: x[1],
reverse=True)` (lines 183-190). -/
def insertByBuyDesc (x : RankedEntry) : List RankedEntry → List RankedEntry
  | [] => [x]
  | y :: ys => if y.2.1 < x.2.1 then x :: y :: ys else y :: insertByBuyDesc x ys

/-- Insertion sort by descending buy volume (see `insertByBuyDesc`). -/
def sortByBuyDesc : List RankedEntry → List RankedEntry
  | [] => []
  | x :: xs => insertByBuyDesc x (sortByBuyDesc xs)

/-- The post-processing of `get_top_stocks` (lines 177-191): `[]` when no
stock accumulated any buys, otherwise the per-stock tuples over
`set(stock_buys) | set(stock_sells)`, sorted descending by buy volume and
truncated with `[:num_stocks]`. -/
def rankStocks (st : AggSt) (num_stocks : ℕ) : List RankedEntry :=
  if st.stock_buys = [] then []
  else
    (sortByBuyDesc ((unionKeys st.stock_buys st.stock_sells).map
      (fun s => (s, (lookupKV st.stock_buys s).getD 0,
                 (lookupKV st.stock_sells s).getD 0,
                 (lookupKV st.failed_dates s).getD [])))).take num_stocks

/-- `get_top_stocks(num_stocks, num_days)` (lines 139-193): the ranked list
together with `(start_date, end_date)`. -/
def get_top_stocks (today : ℤ) (num_stocks num_days : ℕ)
    (world : ℕ → FetchOutcome) (rng rng2 : ℕ → ℚ) :
    List RankedEntry × ℤ × ℤ :=
  let fin := aggLoop today num_days world rng rng2
  (rankStocks fin num_stocks, fin.start_date, today - 1)

/-- `net_buy = buy_amount - sell_amount` as the driver computes it from a
ranked tuple (line 274). -/
def net_buy (e : RankedEntry) : ℤ := e.2.1 - e.2.2.1

/-- The stocks present in an iteration's dataset (empty for a no-data
iteration). -/
def stocksOf (e : IterLog) : List String :=
  match e.res with
  | some rows => rows.map Prod.fst
  | none => []

/-- Number of iterations whose fetch returned a dataset. -/
def hitCount (l : List IterLog) : ℕ :=
  (l.filter (fun e => e.res.isSome)).length

/-- Number of distinct queried date strings whose fetch returned a dataset. -/
def distinctHitDates (l : List IterLog) : ℕ :=
  ((l.filter (fun e => e.res.isSome)).map (fun e => e.qDate)).dedup.length

/-- A stock's failed-dates list (`failed_dates.get(stock_id, [])`). -/
def failedOf (st : AggSt) (s : String) : List ℤ :=
  (lookupKV st.failed_dates s).getD []

end Stock

namespace Stock

theorem lookupKV_eq_none_iff {κ β : Type} [DecidableEq κ]
    (m : List (κ × β)) (k : κ) :
    lookupKV m k = none ↔ k ∉ m.map Prod.fst := by
  induction m with
  | nil => simp [lookupKV]
  | cons p rest ih =>
    rw [lookupKV]
    by_cases hp : p.1 = k
    · subst hp
      simp
    · simp only [if_neg hp, List.map_cons, List.mem_cons, ih]
      constructor
      · rintro hn (h1 | h2)
        · exact hp h1.symm
        · exact hn h2
      · intro hn h2
        exact hn (Or.inr h2)

theorem lookupKV_isSome_iff {κ β : Type} [DecidableEq κ]
    (m : List (κ × β)) (k : κ) :
    (lookupKV m k).isSome ↔ k ∈ m.map Prod.fst := by
  rw [← not_iff_not]
  simp [Option.isSome_iff_ne_none, lookupKV_eq_none_iff]

theorem lookupKV_append_single_of_some {κ β : Type} [DecidableEq κ]
    (m : List (κ × β)) (s : κ) (v : β) (k : κ) (w : β)
    (h : lookupKV m k = some w) :
    lookupKV (m ++ [(s, v)]) k = some w := by
  induction m with
  | nil => simp [lookupKV] at h
  | cons p rest ih =>
    rw [lookupKV] at h
    rw [List.cons_append, lookupKV]
    by_cases hp : p.1 = k
    · rwa [if_pos hp] at h ⊢
    · rw [if_neg hp] at h ⊢
      exact ih h

theorem lookupKV_append_single_of_none {κ β : Type} [DecidableEq κ]
    (m : List (κ × β)) (s : κ) (v : β) (k : κ)
    (h : lookupKV m k = none) :
    lookupKV (m ++ [(s, v)]) k = if s = k then some v else none := by
  induction m with
  | nil => simp [lookupKV]
  | cons p rest ih =>
    rw [lookupKV] at h
    rw [List.cons_append, lookupKV]
    by_cases hp : p.1 = k
    · rw [if_pos hp] at h
      exact absurd h (by simp)
    · rw [if_neg hp] at h ⊢
      exact ih h

theorem lookupKV_map_update {κ β : Type} [DecidableEq κ]
    (m : List (κ × β)) (s : κ) (f : β → β) (k : κ) :
    lookupKV (m.map (fun p => if p.1 = s then (p.1, f p.2) else p)) k =
      if k = s then (lookupKV m k).map f else lookupKV m k := by
  induction m with
  | nil => simp [lookupKV]
  | cons p rest ih =>
    simp only [List.map_cons, lookupKV]
    by_cases hps : p.1 = s <;> by_cases hpk : p.1 = k
    · have hks : k = s := by rw [← hpk, hps]
      simp [hps, hks]
    · have hks : ¬ k = s := fun h => hpk (by rw [hps, ← h])
      have hsk : ¬ s = k := fun h => hks h.symm
      simp [hps, hpk, hks, hsk, ih]
    · have hks : ¬ k = s := fun h => hps (by rw [hpk, h])
      simp [hps, hpk, hks]
    · simp [hps, hpk, ih]

theorem keys_map_update {κ β : Type} [DecidableEq κ]
    (m : List (κ × β)) (s : κ) (f : β → β) :
    (m.map (fun p => if p.1 = s then (p.1, f p.2) else p)).map Prod.fst =
      m.map Prod.fst := by
  induction m with
  | nil => rfl
  | cons p rest ih =>
    simp only [List.map_cons, ih]
    by_cases hps : p.1 = s
    · rw [if_pos hps]
    · rw [if_neg hps]

theorem dictAdd_of_some (m : List (String × ℤ)) (s : String) (v w : ℤ)
    (h : lookupKV m s = some w) :
    dictAdd m s v = m.map (fun p => if p.1 = s then (p.1, p.2 + v) else p) := by
  rw [dictAdd, h]

theorem dictAdd_of_none (m : List (String × ℤ)) (s : String) (v : ℤ)
    (h : lookupKV m s = none) :
    dictAdd m s v = m ++ [(s, v)] := by
  rw [dictAdd, h]

theorem ensureKey_of_some (m : List (String × List ℤ)) (s : String)
    (w : List ℤ) (h : lookupKV m s = some w) : ensureKey m s = m := by
  rw [ensureKey, h]

theorem ensureKey_of_none (m : List (String × List ℤ)) (s : String)
    (h : lookupKV m s = none) : ensureKey m s = m ++ [(s, [])] := by
  rw [ensureKey, h]

theorem appendFail_of_some (m : List (String × List ℤ)) (s : String) (d : ℤ)
    (w : List ℤ) (h : lookupKV m s = some w) :
    appendFail m s d =
      m.map (fun p => if p.1 = s then (p.1, p.2 ++ [d]) else p) := by
  rw [appendFail, h]

theorem appendFail_of_none (m : List (String × List ℤ)) (s : String) (d : ℤ)
    (h : lookupKV m s = none) : appendFail m s d = m ++ [(s, [d])] := by
  rw [appendFail, h]

theorem lookupKV_dictAdd_isSome (m : List (String × ℤ)) (s : String) (v : ℤ)
    (k : String) :
    (lookupKV (dictAdd m s v) k).isSome ↔ (lookupKV m k).isSome ∨ k = s := by
  cases hs : lookupKV m s with
  | some w =>
    rw [dictAdd_of_some m s v w hs, lookupKV_map_update m s (· + v) k]
    by_cases hk : k = s
    · rw [if_pos hk, hk, hs]
      simp [hk]
    · rw [if_neg hk]
      simp [hk]
  | none =>
    rw [dictAdd_of_none m s v hs]
    cases hk2 : lookupKV m k with
    | some w =>
      rw [lookupKV_append_single_of_some m s v k w hk2]
      simp
    | none =>
      rw [lookupKV_append_single_of_none m s v k hk2]
      by_cases hsk : s = k
      · simp [hsk.symm]
      · have hks : ¬ k = s := fun h => hsk (Eq.symm h)
        simp [hsk, hks]

theorem dictAdd_keys_nodup (m : List (String × ℤ)) (s : String) (v : ℤ)
    (h : (m.map Prod.fst).Nodup) :
    ((dictAdd m s v).map Prod.fst).Nodup := by
  cases hs : lookupKV m s with
  | some w =>
    rw [dictAdd_of_some m s v w hs, keys_map_update m s (· + v)]
    exact h
  | none =>
    rw [dictAdd_of_none m s v hs, List.map_append]
    have hnot : s ∉ m.map Prod.fst := (lookupKV_eq_none_iff m s).mp hs
    simp [List.nodup_append, h, hnot]

theorem getD_ensureKey (m : List (String × List ℤ)) (s k : String) :
    (lookupKV (ensureKey m s) k).getD [] = (lookupKV m k).getD [] := by
  cases hs : lookupKV m s with
  | some w => rw [ensureKey_of_some m s w hs]
  | none =>
    rw [ensureKey_of_none m s hs]
    cases hk : lookupKV m k with
    | some w =>
      rw [lookupKV_append_single_of_some m s [] k w hk]
    | none =>
      rw [lookupKV_append_single_of_none m s [] k hk]
      by_cases hsk : s = k
      · simp [hsk]
      · simp [hsk]

theorem ensureKey_keys_nodup (m : List (String × List ℤ)) (s : String)
    (h : (m.map Prod.fst).Nodup) :
    ((ensureKey m s).map Prod.fst).Nodup := by
  cases hs : lookupKV m s with
  | some w =>
    rw [ensureKey_of_some m s w hs]
    exact h
  | none =>
    rw [ensureKey_of_none m s hs, List.map_append]
    have hnot : s ∉ m.map Prod.fst := (lookupKV_eq_none_iff m s).mp hs
    simp [List.nodup_append, h, hnot]

theorem getD_appendFail (m : List (String × List ℤ)) (s : String) (d : ℤ)
    (k : String) :
    (lookupKV (appendFail m s d) k).getD [] =
      if k = s then (lookupKV m k).getD [] ++ [d]
      else (lookupKV m k).getD [] := by
  cases hs : lookupKV m s with
  | some w =>
    rw [appendFail_of_some m s d w hs, lookupKV_map_update m s (· ++ [d]) k]
    by_cases hk : k = s
    · rw [if_pos hk, if_pos hk, hk, hs]
      rfl
    · rw [if_neg hk, if_neg hk]
  | none =>
    by_cases hk : k = s
    · rw [appendFail_of_none m s d hs, if_pos hk, hk,
          lookupKV_append_single_of_none m s [d] s hs, if_pos rfl, hs]
      rfl
    · rw [appendFail_of_none m s d hs, if_neg hk]
      cases hk2 : lookupKV m k with
      | some w => rw [lookupKV_append_single_of_some m s [d] k w hk2]
      | none =>
        rw [lookupKV_append_single_of_none m s [d] k hk2,
            if_neg (fun h => hk (Eq.symm h))]

theorem appendFail_keys_nodup (m : List (String × List ℤ)) (s : String)
    (d : ℤ) (h : (m.map Prod.fst).Nodup) :
    ((appendFail m s d).map Prod.fst).Nodup := by
  cases hs : lookupKV m s with
  | some w =>
    rw [appendFail_of_some m s d w hs, keys_map_update m s (· ++ [d])]
    exact h
  | none =>
    rw [appendFail_of_none m s d hs, List.map_append]
    have hnot : s ∉ m.map Prod.fst := (lookupKV_eq_none_iff m s).mp hs
    simp [List.nodup_append, h, hnot]

end Stock

namespace Stock

theorem getD_foldl_appendFail (d : ℤ) :
    ∀ (ks : List String) (m : List (String × List ℤ)) (k : String),
      ks.Nodup →
      (lookupKV (ks.foldl (fun m2 k2 => appendFail m2 k2 d) m) k).getD [] =
        if k ∈ ks then (lookupKV m k).getD [] ++ [d]
        else (lookupKV m k).getD []
  | [], m, k, _ => by simp
  | k0 :: ks, m, k, hnd => by
    simp only [List.foldl_cons]
    rw [getD_foldl_appendFail d ks (appendFail m k0 d) k (List.Nodup.of_cons hnd)]
    have hk0ks : k0 ∉ ks := (List.nodup_cons.mp hnd).1
    by_cases hkk0 : k = k0
    · subst hkk0
      rw [if_neg hk0ks, getD_appendFail, if_pos rfl,
          if_pos (List.mem_cons_self k ks)]
    · rw [getD_appendFail, if_neg hkk0]
      by_cases hmem : k ∈ ks
      · rw [if_pos hmem, if_pos (List.mem_cons_of_mem k0 hmem)]
      · rw [if_neg hmem, if_neg (by simp [hkk0, hmem])]

theorem foldl_appendFail_keys_nodup (d : ℤ) :
    ∀ (ks : List String) (m : List (String × List ℤ)),
      (m.map Prod.fst).Nodup →
      ((ks.foldl (fun m2 k2 => appendFail m2 k2 d) m).map Prod.fst).Nodup
  | [], m, h => h
  | k0 :: ks, m, h => by
    simp only [List.foldl_cons]
    exact foldl_appendFail_keys_nodup d ks (appendFail m k0 d)
      (appendFail_keys_nodup m k0 d h)

theorem mergeRows_nil
    (acc : List (String × ℤ) × List (String × ℤ) × List (String × List ℤ)) :
    mergeRows acc [] = acc := rfl

theorem mergeRows_cons
    (acc : List (String × ℤ) × List (String × ℤ) × List (String × List ℤ))
    (row : String × ℤ × ℤ) (rows : DayData) :
    mergeRows acc (row :: rows) =
      mergeRows (dictAdd acc.1 row.1 row.2.1, dictAdd acc.2.1 row.1 row.2.2,
        ensureKey acc.2.2 row.1) rows := rfl

theorem mergeRows_buys_isSome :
    ∀ (rows : DayData) (b sl : List (String × ℤ))
      (f : List (String × List ℤ)) (k : String),
      (lookupKV (mergeRows (b, sl, f) rows).1 k).isSome ↔
        (lookupKV b k).isSome ∨ k ∈ rows.map Prod.fst
  | [], b, sl, f, k => by simp [mergeRows_nil]
  | row :: rows, b, sl, f, k => by
    rw [mergeRows_cons, mergeRows_buys_isSome rows _ _ _ k,
        lookupKV_dictAdd_isSome]
    simp only [List.map_cons, List.mem_cons]
    tauto

theorem mergeRows_sells_isSome :
    ∀ (rows : DayData) (b sl : List (String × ℤ))
      (f : List (String × List ℤ)) (k : String),
      (lookupKV (mergeRows (b, sl, f) rows).2.1 k).isSome ↔
        (lookupKV sl k).isSome ∨ k ∈ rows.map Prod.fst
  | [], b, sl, f, k => by simp [mergeRows_nil]
  | row :: rows, b, sl, f, k => by
    rw [mergeRows_cons, mergeRows_sells_isSome rows _ _ _ k,
        lookupKV_dictAdd_isSome]
    simp only [List.map_cons, List.mem_cons]
    tauto

theorem mergeRows_failed_getD :
    ∀ (rows : DayData) (b sl : List (String × ℤ))
      (f : List (String × List ℤ)) (k : String),
      (lookupKV (mergeRows (b, sl, f) rows).2.2 k).getD [] =
        (lookupKV f k).getD []
  | [], b, sl, f, k => rfl
  | row :: rows, b, sl, f, k => by
    rw [mergeRows_cons, mergeRows_failed_getD rows _ _ _ k, getD_ensureKey]

theorem mergeRows_nodup :
    ∀ (rows : DayData) (b sl : List (String × ℤ))
      (f : List (String × List ℤ)),
      (b.map Prod.fst).Nodup → (sl.map Prod.fst).Nodup →
      (f.map Prod.fst).Nodup →
      ((mergeRows (b, sl, f) rows).1.map Prod.fst).Nodup ∧
        ((mergeRows (b, sl, f) rows).2.1.map Prod.fst).Nodup ∧
        ((mergeRows (b, sl, f) rows).2.2.map Prod.fst).Nodup
  | [], b, sl, f, hb, hsl, hf => ⟨hb, hsl, hf⟩
  | row :: rows, b, sl, f, hb, hsl, hf => by
    rw [mergeRows_cons]
    exact mergeRows_nodup rows _ _ _
      (dictAdd_keys_nodup b row.1 row.2.1 hb)
      (dictAdd_keys_nodup sl row.1 row.2.2 hsl)
      (ensureKey_keys_nodup f row.1 hf)

theorem mem_unionKeys (b sl : List (String × ℤ)) (k : String) :
    k ∈ unionKeys b sl ↔
      (lookupKV b k).isSome ∨ (lookupKV sl k).isSome := by
  rw [unionKeys, List.mem_dedup, List.mem_append,
      lookupKV_isSome_iff, lookupKV_isSome_iff]

theorem unionKeys_nodup (b sl : List (String × ℤ)) :
    (unionKeys b sl).Nodup :=
  List.nodup_dedup _

theorem exists_split_append_singleton {α : Type} (xs : List α) (y : α)
    (P : List α → α → Prop) :
    (∃ l1 e l2, xs ++ [y] = l1 ++ e :: l2 ∧ P l1 e) ↔
      (∃ l1 e l2, xs = l1 ++ e :: l2 ∧ P l1 e) ∨ P xs y := by
  constructor
  · rintro ⟨l1, e, l2, heq, hP⟩
    rcases List.eq_nil_or_concat l2 with h2 | ⟨l2', z, h2⟩
    · subst h2
      have hlen : ([y] : List α).length = [e].length := rfl
      have hinj := List.append_inj' heq hlen
      have hxs : xs = l1 := hinj.1
      have hye : y = e := by
        have := hinj.2
        simpa using this
      subst hxs
      subst hye
      exact Or.inr hP
    · subst h2
      have heq2 : xs ++ [y] = (l1 ++ e :: l2') ++ [z] := by
        rw [heq]
        simp [List.concat_eq_append]
      have hlen : ([y] : List α).length = [z].length := rfl
      have hinj := List.append_inj' heq2 hlen
      exact Or.inl ⟨l1, e, l2', hinj.1, hP⟩
  · rintro (⟨l1, e, l2, heq, hP⟩ | hP)
    · exact ⟨l1, e, l2 ++ [y], by rw [heq]; simp, hP⟩
    · exact ⟨xs, y, [], rfl, hP⟩

theorem chain_gt_append (l : List ℤ) (y : ℤ)
    (hc : l.Chain' (fun a b => b < a)) (hall : ∀ x ∈ l, y < x) :
    (l ++ [y]).Chain' (fun a b => b < a) := by
  rw [List.chain'_append]
  refine ⟨hc, List.chain'_singleton y, ?_⟩
  intro x hx yy hyy
  have hxl : x ∈ l := by
    rcases List.mem_getLast?_eq_getLast hx with ⟨hne, hxe⟩
    rw [hxe]
    exact List.getLast_mem hne
  have hy : y = yy := by simpa using hyy
  rw [← hy]
  exact hall x hxl

end Stock

namespace Stock

theorem stepAgg_of_some (today end_date : ℤ) (world : ℕ → FetchOutcome)
    (rng rng2 : ℕ → ℚ) (st : AggSt) (rows : DayData)
    (h : (fetch_stock_data world rng
        (get_valid_date today (end_date - st.current_date)) st.net).1 =
      some rows) :
    stepAgg today end_date world rng rng2 st =
      { stock_buys :=
          (mergeRows (st.stock_buys, st.stock_sells, st.failed_dates) rows).1,
        stock_sells :=
          (mergeRows (st.stock_buys, st.stock_sells, st.failed_dates) rows).2.1,
        failed_dates :=
          (mergeRows (st.stock_buys, st.stock_sells, st.failed_dates) rows).2.2,
        start_date := st.current_date,
        days_with_data := st.days_with_data + 1,
        current_date := st.current_date - 1,
        net := (fetch_stock_data world rng
          (get_valid_date today (end_date - st.current_date)) st.net).2,
        loopSleeps := st.loopSleeps ++ [rng2 st.loopSleeps.length],
        log := st.log ++
          [(⟨st.current_date,
             get_valid_date today (end_date - st.current_date),
             some rows⟩ : IterLog)] } := by
  rw [stepAgg]
  simp only [h]

theorem stepAgg_of_none (today end_date : ℤ) (world : ℕ → FetchOutcome)
    (rng rng2 : ℕ → ℚ) (st : AggSt)
    (h : (fetch_stock_data world rng
        (get_valid_date today (end_date - st.current_date)) st.net).1 =
      none) :
    stepAgg today end_date world rng rng2 st =
      { stock_buys := st.stock_buys,
        stock_sells := st.stock_sells,
        failed_dates :=
          (unionKeys st.stock_buys st.stock_sells).foldl
            (fun m k => appendFail m k st.current_date) st.failed_dates,
        start_date := st.start_date,
        days_with_data := st.days_with_data,
        current_date := st.current_date - 1,
        net := (fetch_stock_data world rng
          (get_valid_date today (end_date - st.current_date)) st.net).2,
        loopSleeps := st.loopSleeps ++ [rng2 st.loopSleeps.length],
        log := st.log ++
          [(⟨st.current_date,
             get_valid_date today (end_date - st.current_date),
             none⟩ : IterLog)] } := by
  rw [stepAgg]
  simp only [h]

end Stock

namespace Stock

/-- Run invariant of the aggregation loop, tying the program state to the
ghost iteration log: the cumulative maps hold exactly the stocks seen on some
successful day; a date is in a stock's failed list exactly when a later
iteration (in walk order) than some day on which the stock appeared produced
no data and had that raw date; raw dates strictly decrease along the walk, so
failed-dates lists are strictly decreasing; keys are unique;
`days_with_data` counts the iterations whose fetch returned data; and
`current_date` tracks the iteration count. -/
structure AggInv (end_date : ℤ) (num_days : ℕ) (st : AggSt) : Prop where
  buys_seen : ∀ s, (lookupKV st.stock_buys s).isSome ↔
    ∃ e ∈ st.log, s ∈ stocksOf e
  sells_seen : ∀ s, (lookupKV st.stock_sells s).isSome ↔
    ∃ e ∈ st.log, s ∈ stocksOf e
  failed_iff : ∀ s d, d ∈ failedOf st s ↔
    ∃ l1 e l2, st.log = l1 ++ e :: l2 ∧ e.res = none ∧ e.rawDate = d ∧
      ∃ e2 ∈ l1, s ∈ stocksOf e2
  log_future : ∀ e ∈ st.log, st.current_date < e.rawDate
  failed_future : ∀ s, ∀ d ∈ failedOf st s, st.current_date < d
  failed_sorted : ∀ s, (failedOf st s).Chain' (fun a b => b < a)
  buys_nodup : (st.stock_buys.map Prod.fst).Nodup
  sells_nodup : (st.stock_sells.map Prod.fst).Nodup
  failed_nodup : (st.failed_dates.map Prod.fst).Nodup
  days_hits : st.days_with_data = hitCount st.log
  days_le : st.days_with_data ≤ num_days
  cur_log : st.current_date = end_date - st.log.length

theorem stepAgg_inv (today end_date : ℤ) (num_days : ℕ)
    (world : ℕ → FetchOutcome) (rng rng2 : ℕ → ℚ) (st : AggSt)
    (hinv : AggInv end_date num_days st)
    (hdays : st.days_with_data < num_days) :
    AggInv end_date num_days (stepAgg today end_date world rng rng2 st) := by
  cases hfr : (fetch_stock_data world rng
      (get_valid_date today (end_date - st.current_date)) st.net).1 with
  | some rows =>
    have hstep := stepAgg_of_some today end_date world rng rng2 st rows hfr
    set M := mergeRows (st.stock_buys, st.stock_sells, st.failed_dates) rows
      with hM
    set E : IterLog :=
      ⟨st.current_date, get_valid_date today (end_date - st.current_date),
        some rows⟩ with hE
    have hb : (stepAgg today end_date world rng rng2 st).stock_buys = M.1 := by
      rw [hstep]
    have hsl : (stepAgg today end_date world rng rng2 st).stock_sells =
        M.2.1 := by
      rw [hstep]
    have hfd : (stepAgg today end_date world rng rng2 st).failed_dates =
        M.2.2 := by
      rw [hstep]
    have hdd : (stepAgg today end_date world rng rng2 st).days_with_data =
        st.days_with_data + 1 := by
      rw [hstep]
    have hcd : (stepAgg today end_date world rng rng2 st).current_date =
        st.current_date - 1 := by
      rw [hstep]
    have hlog : (stepAgg today end_date world rng rng2 st).log =
        st.log ++ [E] := by
      rw [hstep]
    have hfo : ∀ s, failedOf (stepAgg today end_date world rng rng2 st) s =
        failedOf st s := by
      intro s
      show (lookupKV (stepAgg today end_date world rng rng2 st).failed_dates
        s).getD [] = (lookupKV st.failed_dates s).getD []
      rw [hfd, hM, mergeRows_failed_getD rows _ _ _ s]
    have hEstocks : stocksOf E = rows.map Prod.fst := by
      rw [hE, stocksOf]
    refine ⟨?_, ?_, ?_, ?_, ?_, ?_, ?_, ?_, ?_, ?_, ?_, ?_⟩
    · intro s
      rw [hb, hM, mergeRows_buys_isSome rows _ _ _ s, hinv.buys_seen s, hlog]
      constructor
      · rintro (⟨e, he, hs⟩ | hs)
        · exact ⟨e, List.mem_append_left _ he, hs⟩
        · exact ⟨E, List.mem_append_right _ (by simp), by rwa [hEstocks]⟩
      · rintro ⟨e, he, hs⟩
        rcases List.mem_append.mp he with he | he
        · exact Or.inl ⟨e, he, hs⟩
        · have heE : e = E := by simpa using he
          subst heE
          exact Or.inr (by rwa [hEstocks] at hs)
    · intro s
      rw [hsl, hM, mergeRows_sells_isSome rows _ _ _ s, hinv.sells_seen s,
        hlog]
      constructor
      · rintro (⟨e, he, hs⟩ | hs)
        · exact ⟨e, List.mem_append_left _ he, hs⟩
        · exact ⟨E, List.mem_append_right _ (by simp), by rwa [hEstocks]⟩
      · rintro ⟨e, he, hs⟩
        rcases List.mem_append.mp he with he | he
        · exact Or.inl ⟨e, he, hs⟩
        · have heE : e = E := by simpa using he
          subst heE
          exact Or.inr (by rwa [hEstocks] at hs)
    · intro s d
      rw [hfo s, hlog, hinv.failed_iff s d,
        exists_split_append_singleton st.log E
          (fun l1 e => e.res = none ∧ e.rawDate = d ∧
            ∃ e2 ∈ l1, s ∈ stocksOf e2)]
      have hEres : E.res = some rows := by rw [hE]
      simp [hEres]
    · intro e he
      rw [hlog] at he
      rw [hcd]
      rcases List.mem_append.mp he with he | he
      · have := hinv.log_future e he
        omega
      · have heE : e = E := by simpa using he
        subst heE
        have : E.rawDate = st.current_date := by rw [hE]
        omega
    · intro s d hd
      rw [hfo s] at hd
      rw [hcd]
      have := hinv.failed_future s d hd
      omega
    · intro s
      rw [hfo s]
      exact hinv.failed_sorted s
    · rw [hb, hM]
      exact (mergeRows_nodup rows _ _ _ hinv.buys_nodup hinv.sells_nodup
        hinv.failed_nodup).1
    · rw [hsl, hM]
      exact (mergeRows_nodup rows _ _ _ hinv.buys_nodup hinv.sells_nodup
        hinv.failed_nodup).2.1
    · rw [hfd, hM]
      exact (mergeRows_nodup rows _ _ _ hinv.buys_nodup hinv.sells_nodup
        hinv.failed_nodup).2.2
    · rw [hdd, hlog, hitCount, List.filter_append, List.length_append,
        hinv.days_hits, hitCount]
      have : (List.filter (fun e => e.res.isSome) [E]).length = 1 := by
        simp [hE]
      omega
    · rw [hdd]
      omega
    · rw [hcd, hlog, List.length_append, hinv.cur_log]
      simp
      omega
  | none =>
    have hstep := stepAgg_of_none today end_date world rng rng2 st hfr
    set FD := (unionKeys st.stock_buys st.stock_sells).foldl
      (fun m k => appendFail m k st.current_date) st.failed_dates with hFD
    set E : IterLog :=
      ⟨st.current_date, get_valid_date today (end_date - st.current_date),
        none⟩ with hE
    have hb : (stepAgg today end_date world rng rng2 st).stock_buys =
        st.stock_buys := by
      rw [hstep]
    have hsl : (stepAgg today end_date world rng rng2 st).stock_sells =
        st.stock_sells := by
      rw [hstep]
    have hfd : (stepAgg today end_date world rng rng2 st).failed_dates =
        FD := by
      rw [hstep]
    have hdd : (stepAgg today end_date world rng rng2 st).days_with_data =
        st.days_with_data := by
      rw [hstep]
    have hcd : (stepAgg today end_date world rng rng2 st).current_date =
        st.current_date - 1 := by
      rw [hstep]
    have hlog : (stepAgg today end_date world rng rng2 st).log =
        st.log ++ [E] := by
      rw [hstep]
    have hseen : ∀ s, s ∈ unionKeys st.stock_buys st.stock_sells ↔
        ∃ e2 ∈ st.log, s ∈ stocksOf e2 := by
      intro s
      rw [mem_unionKeys, hinv.buys_seen s, hinv.sells_seen s, or_self]
    have hfo : ∀ s, failedOf (stepAgg today end_date world rng rng2 st) s =
        if s ∈ unionKeys st.stock_buys st.stock_sells
        then failedOf st s ++ [st.current_date] else failedOf st s := by
      intro s
      show (lookupKV (stepAgg today end_date world rng rng2 st).failed_dates
        s).getD [] = _
      rw [hfd, hFD, getD_foldl_appendFail st.current_date _ _ s
        (unionKeys_nodup _ _)]
      rfl
    have hEstocks : stocksOf E = [] := by
      rw [hE, stocksOf]
    refine ⟨?_, ?_, ?_, ?_, ?_, ?_, ?_, ?_, ?_, ?_, ?_, ?_⟩
    · intro s
      rw [hb, hinv.buys_seen s, hlog]
      constructor
      · rintro ⟨e, he, hs⟩
        exact ⟨e, List.mem_append_left _ he, hs⟩
      · rintro ⟨e, he, hs⟩
        rcases List.mem_append.mp he with he | he
        · exact ⟨e, he, hs⟩
        · have heE : e = E := by simpa using he
          subst heE
          rw [hEstocks] at hs
          exact absurd hs (List.not_mem_nil s)
    · intro s
      rw [hsl, hinv.sells_seen s, hlog]
      constructor
      · rintro ⟨e, he, hs⟩
        exact ⟨e, List.mem_append_left _ he, hs⟩
      · rintro ⟨e, he, hs⟩
        rcases List.mem_append.mp he with he | he
        · exact ⟨e, he, hs⟩
        · have heE : e = E := by simpa using he
          subst heE
          rw [hEstocks] at hs
          exact absurd hs (List.not_mem_nil s)
    · intro s d
      rw [hfo s, hlog,
        exists_split_append_singleton st.log E
          (fun l1 e => e.res = none ∧ e.rawDate = d ∧
            ∃ e2 ∈ l1, s ∈ stocksOf e2)]
      have hEres : E.res = none := by rw [hE]
      have hEraw : E.rawDate = st.current_date := by rw [hE]
      by_cases hmem : s ∈ unionKeys st.stock_buys st.stock_sells
      · rw [if_pos hmem]
        rw [List.mem_append, List.mem_singleton, hinv.failed_iff s d]
        constructor
        · rintro (hold | hdc)
          · exact Or.inl hold
          · exact Or.inr ⟨hEres, by rw [hEraw, hdc], (hseen s).mp hmem⟩
        · rintro (hold | ⟨_, hraw, _⟩)
          · exact Or.inl hold
          · exact Or.inr (by rw [← hraw, hEraw])
      · rw [if_neg hmem, hinv.failed_iff s d]
        constructor
        · intro hold
          exact Or.inl hold
        · rintro (hold | ⟨_, _, hseen2⟩)
          · exact hold
          · exact absurd ((hseen s).mpr hseen2) hmem
    · intro e he
      rw [hlog] at he
      rw [hcd]
      rcases List.mem_append.mp he with he | he
      · have := hinv.log_future e he
        omega
      · have heE : e = E := by simpa using he
        subst heE
        have : E.rawDate = st.current_date := by rw [hE]
        omega
    · intro s d hd
      rw [hfo s] at hd
      rw [hcd]
      by_cases hmem : s ∈ unionKeys st.stock_buys st.stock_sells
      · rw [if_pos hmem, List.mem_append, List.mem_singleton] at hd
        rcases hd with hd | hd
        · have := hinv.failed_future s d hd
          omega
        · omega
      · rw [if_neg hmem] at hd
        have := hinv.failed_future s d hd
        omega
    · intro s
      rw [hfo s]
      by_cases hmem : s ∈ unionKeys st.stock_buys st.stock_sells
      · rw [if_pos hmem]
        exact chain_gt_append (failedOf st s) st.current_date
          (hinv.failed_sorted s) (hinv.failed_future s)
      · rw [if_neg hmem]
        exact hinv.failed_sorted s
    · rw [hb]
      exact hinv.buys_nodup
    · rw [hsl]
      exact hinv.sells_nodup
    · rw [hfd, hFD]
      exact foldl_appendFail_keys_nodup st.current_date _ _ hinv.failed_nodup
    · rw [hdd, hlog, hitCount, List.filter_append, List.length_append,
        hinv.days_hits, hitCount]
      have : (List.filter (fun e => e.res.isSome) [E]).length = 0 := by
        simp [hE]
      omega
    · rw [hdd]
      omega
    · rw [hcd, hlog, List.length_append, hinv.cur_log]
      simp
      omega

end Stock

namespace Stock

theorem stepAgg_current (today end_date : ℤ) (world : ℕ → FetchOutcome)
    (rng rng2 : ℕ → ℚ) (st : AggSt) :
    (stepAgg today end_date world rng rng2 st).current_date =
      st.current_date - 1 := by
  cases hfr : (fetch_stock_data world rng
      (get_valid_date today (end_date - st.current_date)) st.net).1 with
  | some rows => rw [stepAgg_of_some today end_date world rng rng2 st rows hfr]
  | none => rw [stepAgg_of_none today end_date world rng rng2 st hfr]

theorem stepAgg_log_len (today end_date : ℤ) (world : ℕ → FetchOutcome)
    (rng rng2 : ℕ → ℚ) (st : AggSt) :
    (stepAgg today end_date world rng rng2 st).log.length =
      st.log.length + 1 := by
  cases hfr : (fetch_stock_data world rng
      (get_valid_date today (end_date - st.current_date)) st.net).1 with
  | some rows =>
    rw [stepAgg_of_some today end_date world rng rng2 st rows hfr]
    simp
  | none =>
    rw [stepAgg_of_none today end_date world rng rng2 st hfr]
    simp

theorem runAgg_inv (today end_date : ℤ) (num_days : ℕ)
    (world : ℕ → FetchOutcome) (rng rng2 : ℕ → ℚ) :
    ∀ (fuel : ℕ) (st : AggSt), AggInv end_date num_days st →
      AggInv end_date num_days
        (runAgg today end_date num_days world rng rng2 fuel st)
  | 0, st, h => h
  | fuel + 1, st, h => by
    rw [runAgg]
    by_cases hg : st.days_with_data < num_days ∧
      end_date - st.current_date < 30
    · rw [if_pos hg]
      exact runAgg_inv today end_date num_days world rng rng2 fuel _
        (stepAgg_inv today end_date num_days world rng rng2 st h hg.1)
    · rw [if_neg hg]
      exact h

/-- With fuel at least `30 - (end_date - current_date)`, the fueled loop runs
until the while guard fails, exactly like the source's while loop: at the
final state `days_with_data < num_days ∧ (end_date - current).days < 30` no
longer holds. -/
theorem runAgg_stops (today end_date : ℤ) (num_days : ℕ)
    (world : ℕ → FetchOutcome) (rng rng2 : ℕ → ℚ) :
    ∀ (fuel : ℕ) (st : AggSt),
      30 ≤ end_date - st.current_date + (fuel : ℤ) →
      ¬ ((runAgg today end_date num_days world rng rng2 fuel st).days_with_data
            < num_days ∧
          end_date -
            (runAgg today end_date num_days world rng rng2 fuel
              st).current_date < 30)
  | 0, st, h => by
    rw [runAgg]
    rintro ⟨_, h2⟩
    simp at h
    omega
  | fuel + 1, st, h => by
    rw [runAgg]
    by_cases hg : st.days_with_data < num_days ∧
      end_date - st.current_date < 30
    · rw [if_pos hg]
      apply runAgg_stops today end_date num_days world rng rng2 fuel
        (stepAgg today end_date world rng rng2 st)
      have hcd := stepAgg_current today end_date world rng rng2 st
      rw [hcd]
      push_cast at h ⊢
      omega
    · rw [if_neg hg]
      exact hg

theorem runAgg_log_growth (today end_date : ℤ) (num_days : ℕ)
    (world : ℕ → FetchOutcome) (rng rng2 : ℕ → ℚ) :
    ∀ (fuel : ℕ) (st : AggSt),
      (runAgg today end_date num_days world rng rng2 fuel st).log.length ≤
        st.log.length + fuel
  | 0, st => by
    rw [runAgg]
    omega
  | fuel + 1, st => by
    rw [runAgg]
    by_cases hg : st.days_with_data < num_days ∧
      end_date - st.current_date < 30
    · rw [if_pos hg]
      have h1 := runAgg_log_growth today end_date num_days world rng rng2 fuel
        (stepAgg today end_date world rng rng2 st)
      have h2 := stepAgg_log_len today end_date world rng rng2 st
      omega
    · rw [if_neg hg]
      omega

theorem initAgg_inv (end_date : ℤ) (num_days : ℕ) :
    AggInv end_date num_days (initAgg end_date) := by
  refine ⟨?_, ?_, ?_, ?_, ?_, ?_, ?_, ?_, ?_, ?_, ?_, ?_⟩
  · intro s
    simp [initAgg, lookupKV]
  · intro s
    simp [initAgg, lookupKV]
  · intro s d
    constructor
    · intro h
      simp [failedOf, initAgg, lookupKV] at h
    · rintro ⟨l1, e, l2, heq, _⟩
      have hlen := congrArg List.length heq
      simp [initAgg] at hlen
      omega
  · intro e he
    simp [initAgg] at he
  · intro s d hd
    simp [failedOf, initAgg, lookupKV] at hd
  · intro s
    simp [failedOf, initAgg, lookupKV]
  · simp [initAgg]
  · simp [initAgg]
  · simp [initAgg]
  · simp [initAgg, hitCount]
  · simp [initAgg]
  · simp [initAgg]

theorem aggLoop_inv (today : ℤ) (num_days : ℕ) (world : ℕ → FetchOutcome)
    (rng rng2 : ℕ → ℚ) :
    AggInv (today - 1) num_days (aggLoop today num_days world rng rng2) :=
  runAgg_inv today (today - 1) num_days world rng rng2 30 (initAgg (today - 1))
    (initAgg_inv (today - 1) num_days)

/-- **C1 (amended).** In every run of the aggregation loop, `days_with_data`
equals (hence never exceeds) the number of loop iterations on which
`fetch_stock_data` returned a non-null dataset, cache hits included.  It may
exceed the number of *distinct* date strings with non-null data, because when
consecutive calendar offsets resolve to the same weekday-adjusted date whose
data is already cached, the cache hit returns a non-null dataset and the
counter is incremented again (`days_with_data_can_exceed_distinct_dates`). -/
theorem days_with_data_counts_hits (today : ℤ) (num_days : ℕ)
    (world : ℕ → FetchOutcome) (rng rng2 : ℕ → ℚ) :
    (aggLoop today num_days world rng rng2).days_with_data =
      hitCount (aggLoop today num_days world rng rng2).log :=
  (aggLoop_inv today num_days world rng rng2).days_hits

/-- World of the C1 counterexample: the first request (for the Monday
`end_date + 1 = today`) reports no data; every later request succeeds.  With
`today` a Monday, offsets 1 and 2 both resolve to the preceding Friday. -/
def c1World : ℕ → FetchOutcome :=
  fun n => if n = 0 then .noData else .good [("A", (10, 5))]

/-- **C1 (counterexample).** The claimed invariant "`days_with_data` never
exceeds the number of distinct date strings for which `fetch_stock_data`
returned a non-null dataset" is false: with `today = 7` (a Monday) and
`num_days = 2`, offsets 1 and 2 both resolve to Friday (day 4); the second
request is served from the day cache and the counter is incremented a second
time for that single distinct date, ending at 2 > 1. -/
theorem days_with_data_can_exceed_distinct_dates :
    ¬ ((aggLoop 7 2 c1World (fun _ => 15) (fun _ => 15)).days_with_data ≤
        distinctHitDates (aggLoop 7 2 c1World (fun _ => 15)
          (fun _ => 15)).log) := by
  intro h
  have h1 : (aggLoop 7 2 c1World (fun _ => 15) (fun _ => 15)).days_with_data
      = 2 := by
    simp [aggLoop, runAgg, stepAgg, initAgg, fetch_stock_data, fetchAttempts,
      lookupKV, get_valid_date, adjustToWeekday_eq, c1World, mergeRows,
      dictAdd, ensureKey, unionKeys, appendFail, hitCount, stocksOf]
  have h2 : distinctHitDates (aggLoop 7 2 c1World (fun _ => 15)
      (fun _ => 15)).log = 1 := by
    simp [aggLoop, runAgg, stepAgg, initAgg, fetch_stock_data, fetchAttempts,
      lookupKV, get_valid_date, adjustToWeekday_eq, c1World, mergeRows,
      dictAdd, ensureKey, unionKeys, appendFail, distinctHitDates, stocksOf]
  rw [h1, h2] at h
  exact absurd h (by decide)

/-- **C3.** A date is in a stock's failed-dates list exactly when some loop
iteration whose fetch yielded no data recorded that raw date *after* an
earlier iteration on which the stock appeared in a successful dataset (i.e.
the stock was already a key of the cumulative buy/sell mappings); no-data
dates that precede a stock's first appearance are never attributed to it. -/
theorem failed_dates_attribution (today : ℤ) (num_days : ℕ)
    (world : ℕ → FetchOutcome) (rng rng2 : ℕ → ℚ) :
    ∀ (s : String) (d : ℤ),
      d ∈ failedOf (aggLoop today num_days world rng rng2) s ↔
        ∃ l1 e l2,
          (aggLoop today num_days world rng rng2).log = l1 ++ e :: l2 ∧
          e.res = none ∧ e.rawDate = d ∧ ∃ e2 ∈ l1, s ∈ stocksOf e2 :=
  (aggLoop_inv today num_days world rng rng2).failed_iff

/-- **C6.** The aggregation loop terminates (it is a total function of its
fuel, and the fuel 30 is never exhausted before the guard fails); the loop
body runs at most 30 times; the elapsed span from the fixed end date equals
the number of iterations; and the loop stops exactly when `days_with_data`
reaches `num_days` or the span reaches 30 days, whichever comes first. -/
theorem aggLoop_termination (today : ℤ) (num_days : ℕ)
    (world : ℕ → FetchOutcome) (rng rng2 : ℕ → ℚ) :
    (aggLoop today num_days world rng rng2).log.length ≤ 30 ∧
    (aggLoop today num_days world rng rng2).days_with_data ≤ num_days ∧
    (today - 1) - (aggLoop today num_days world rng rng2).current_date =
      ((aggLoop today num_days world rng rng2).log.length : ℤ) ∧
    ((aggLoop today num_days world rng rng2).days_with_data = num_days ∨
      (aggLoop today num_days world rng rng2).log.length = 30) := by
  have hinv := aggLoop_inv today num_days world rng rng2
  have hlen : (aggLoop today num_days world rng rng2).log.length ≤ 30 := by
    have := runAgg_log_growth today (today - 1) num_days world rng rng2 30
      (initAgg (today - 1))
    simpa [aggLoop, initAgg] using this
  have hspan : (today - 1) -
      (aggLoop today num_days world rng rng2).current_date =
      ((aggLoop today num_days world rng rng2).log.length : ℤ) := by
    have := hinv.cur_log
    omega
  have hstop := runAgg_stops today (today - 1) num_days world rng rng2 30
    (initAgg (today - 1)) (by simp [initAgg])
  rw [show runAgg today (today - 1) num_days world rng rng2 30
      (initAgg (today - 1)) = aggLoop today num_days world rng rng2 from rfl]
    at hstop
  refine ⟨hlen, hinv.days_le, hspan, ?_⟩
  rcases not_and_or.mp hstop with hd | hs
  · have := hinv.days_le
    omega
  · right
    have : 30 ≤ (today - 1) -
        (aggLoop today num_days world rng rng2).current_date := by omega
    omega

/-- World of the C10 weekend-recording run: the first request (Monday)
succeeds with stock A, the second (for Friday, day 4) reports no data — so
the raw Saturday date 5 is recorded against A — and the third succeeds. -/
def c10World : ℕ → FetchOutcome :=
  fun n => if n = 0 then .good [("A", (10, 5))]
    else if n = 1 then .noData else .good [("B", (1, 2))]

/-- **C10.** In every run, each stock's failed-dates list is strictly
decreasing chronologically (recorded newest-first as the walk moves
backward), and every recorded date is the raw calendar date `current_date` of
a no-data iteration of the walk.  The raw date may be a Saturday or Sunday
and in general differs from the weekday-adjusted date string that was
actually queried: in the concrete run with `today = 7`, the failed date
recorded for stock A is the raw Saturday day 5, while the iteration queried
the adjusted Friday day 4. -/
theorem failed_dates_raw_decreasing (today : ℤ) (num_days : ℕ)
    (world : ℕ → FetchOutcome) (rng rng2 : ℕ → ℚ) :
    (∀ s, (failedOf (aggLoop today num_days world rng rng2) s).Chain'
        (fun a b => b < a)) ∧
    (∀ s d, d ∈ failedOf (aggLoop today num_days world rng rng2) s →
        ∃ l1 e l2,
          (aggLoop today num_days world rng rng2).log = l1 ++ e :: l2 ∧
          e.res = none ∧ e.rawDate = d) ∧
    (failedOf (aggLoop 7 2 c10World (fun _ => 15) (fun _ => 15)) "A" = [5] ∧
      (aggLoop 7 2 c10World (fun _ => 15) (fun _ => 15)).log.get? 1 =
        some ⟨5, 4, none⟩ ∧
      5 ≤ weekday 5 ∧ (5 : ℤ) ≠ 4) := by
  have hinv := aggLoop_inv today num_days world rng rng2
  refine ⟨hinv.failed_sorted, ?_, ?_, ?_, by decide, by decide⟩
  · intro s d hd
    rcases (hinv.failed_iff s d).mp hd with ⟨l1, e, l2, heq, hres, hraw, _⟩
    exact ⟨l1, e, l2, heq, hres, hraw⟩
  · simp [aggLoop, runAgg, stepAgg, initAgg, fetch_stock_data, fetchAttempts,
      lookupKV, get_valid_date, adjustToWeekday_eq, c10World, mergeRows,
      dictAdd, ensureKey, unionKeys, appendFail, failedOf, stocksOf]
  · simp [aggLoop, runAgg, stepAgg, initAgg, fetch_stock_data, fetchAttempts,
      lookupKV, get_valid_date, adjustToWeekday_eq, c10World, mergeRows,
      dictAdd, ensureKey, unionKeys, appendFail, stocksOf]

/-- Witness for `failed_dates_raw_decreasing`: in the concrete `c10World` run
the recorded failed date 5 of stock A is the raw date of a no-data iteration
of the log. -/
theorem failed_dates_raw_decreasing_witness :
    ∃ l1 e l2,
      (aggLoop 7 2 c10World (fun _ => 15) (fun _ => 15)).log =
        l1 ++ e :: l2 ∧ e.res = none ∧ e.rawDate = 5 := by
  apply (failed_dates_raw_decreasing 7 2 c10World (fun _ => 15)
    (fun _ => 15)).2.1 "A" 5
  have := (failed_dates_raw_decreasing 7 2 c10World (fun _ => 15)
    (fun _ => 15)).2.2.1
  rw [this]
  simp

end Stock

namespace Stock

theorem mem_insertByBuyDesc (x : RankedEntry) :
    ∀ (l : List RankedEntry) (y : RankedEntry),
      y ∈ insertByBuyDesc x l ↔ y = x ∨ y ∈ l
  | [], y => by simp [insertByBuyDesc]
  | z :: l, y => by
    rw [insertByBuyDesc]
    by_cases h : z.2.1 < x.2.1
    · rw [if_pos h]
      simp only [List.mem_cons]
    · rw [if_neg h]
      simp only [List.mem_cons, mem_insertByBuyDesc x l y]
      tauto

theorem sorted_insertByBuyDesc (x : RankedEntry) :
    ∀ (l : List RankedEntry),
      l.Pairwise (fun a b => b.2.1 ≤ a.2.1) →
      (insertByBuyDesc x l).Pairwise (fun a b => b.2.1 ≤ a.2.1)
  | [], _ => by simp [insertByBuyDesc]
  | z :: l, h => by
    rw [insertByBuyDesc]
    rcases List.pairwise_cons.mp h with ⟨hz, hl⟩
    by_cases hlt : z.2.1 < x.2.1
    · rw [if_pos hlt]
      refine List.pairwise_cons.mpr ⟨?_, h⟩
      intro b hb
      rcases List.mem_cons.mp hb with hb | hb
      · rw [hb]
        omega
      · have := hz b hb
        omega
    · rw [if_neg hlt]
      refine List.pairwise_cons.mpr ⟨?_, sorted_insertByBuyDesc x l hl⟩
      intro b hb
      rcases (mem_insertByBuyDesc x l b).mp hb with hb | hb
      · rw [hb]
        omega
      · exact hz b hb

theorem sorted_sortByBuyDesc :
    ∀ (l : List RankedEntry),
      (sortByBuyDesc l).Pairwise (fun a b => b.2.1 ≤ a.2.1)
  | [] => by simp [sortByBuyDesc]
  | x :: l => by
    rw [sortByBuyDesc]
    exact sorted_insertByBuyDesc x (sortByBuyDesc l) (sorted_sortByBuyDesc l)

theorem mem_sortByBuyDesc :
    ∀ (l : List RankedEntry) (y : RankedEntry),
      y ∈ sortByBuyDesc l ↔ y ∈ l
  | [], y => by simp [sortByBuyDesc]
  | x :: l, y => by
    rw [sortByBuyDesc, mem_insertByBuyDesc, mem_sortByBuyDesc l y,
      List.mem_cons]

theorem rankStocks_sorted (st : AggSt) (n : ℕ) :
    (rankStocks st n).Pairwise (fun a b => b.2.1 ≤ a.2.1) := by
  rw [rankStocks]
  by_cases h : st.stock_buys = []
  · rw [if_pos h]
    exact List.Pairwise.nil
  · rw [if_neg h]
    exact List.Pairwise.sublist (List.take_sublist _ _)
      (sorted_sortByBuyDesc _)

theorem rankStocks_length (st : AggSt) (n : ℕ) :
    (rankStocks st n).length ≤ n := by
  rw [rankStocks]
  by_cases h : st.stock_buys = []
  · rw [if_pos h]
    simp
  · rw [if_neg h]
    simp

theorem rankStocks_entries (st : AggSt) (n : ℕ) :
    ∀ e ∈ rankStocks st n,
      e.2.1 = (lookupKV st.stock_buys e.1).getD 0 ∧
      e.2.2.1 = (lookupKV st.stock_sells e.1).getD 0 ∧
      e.2.2.2 = (lookupKV st.failed_dates e.1).getD [] := by
  intro e he
  rw [rankStocks] at he
  by_cases h : st.stock_buys = []
  · rw [if_pos h] at he
    exact absurd he (List.not_mem_nil e)
  · rw [if_neg h] at he
    have he2 := List.mem_of_mem_take he
    rw [mem_sortByBuyDesc] at he2
    rcases List.mem_map.mp he2 with ⟨s, _, hmap⟩
    rw [← hmap]
    exact ⟨rfl, rfl, rfl⟩

/-- Aggregation state of the C7 ranking example: buy totals
`{A: 100, B: 50, C: 200}` with sell totals `{A: 30, B: 10, C: 50}`. -/
def exampleAgg : AggSt :=
  { stock_buys := [("A", 100), ("B", 50), ("C", 200)],
    stock_sells := [("A", 30), ("B", 10), ("C", 50)],
    failed_dates := [], start_date := 0, days_with_data := 0,
    current_date := 0, net := ⟨[], 0, []⟩, loopSleeps := [], log := [] }

/-- **C7.** The ranked list returned by `get_top_stocks` is sorted descending
by total buy volume and truncated to at most `num_stocks` entries; each entry
carries the stock's total buy, total sell and failed-dates list from the
cumulative mappings, and the driver's net buy equals total buy minus total
sell; on the buy totals `{A: 100, B: 50, C: 200}` the top-2 result is
`[C, A]`. -/
theorem ranked_list_spec (today : ℤ) (num_stocks num_days : ℕ)
    (world : ℕ → FetchOutcome) (rng rng2 : ℕ → ℚ) :
    ((get_top_stocks today num_stocks num_days world rng rng2).1.Pairwise
      (fun a b => b.2.1 ≤ a.2.1)) ∧
    (get_top_stocks today num_stocks num_days world rng rng2).1.length ≤
      num_stocks ∧
    (∀ e ∈ (get_top_stocks today num_stocks num_days world rng rng2).1,
      e.2.1 = (lookupKV (aggLoop today num_days world rng rng2).stock_buys
        e.1).getD 0 ∧
      e.2.2.1 = (lookupKV (aggLoop today num_days world rng rng2).stock_sells
        e.1).getD 0 ∧
      e.2.2.2 =
        (lookupKV (aggLoop today num_days world rng rng2).failed_dates
          e.1).getD [] ∧
      net_buy e = e.2.1 - e.2.2.1) ∧
    ((rankStocks exampleAgg 2).map (fun e => e.1) = ["C", "A"] ∧
      (rankStocks exampleAgg 2).map net_buy = [150, 70]) := by
  refine ⟨rankStocks_sorted _ _, rankStocks_length _ _, ?_, by decide,
    by decide⟩
  intro e he
  have h := rankStocks_entries (aggLoop today num_days world rng rng2)
    num_stocks e he
  exact ⟨h.1, h.2.1, h.2.2, rfl⟩

/-- Witness for `ranked_list_spec`: a one-day run whose only stock is `A`
with 100 bought and 30 sold; the returned entry carries those totals and the
driver computes net buy 70. -/
theorem ranked_list_spec_witness :
    net_buy ("A", 100, 30, ([] : List ℤ)) = 70 := by
  have h := (ranked_list_spec 9 5 1 (fun _ => .good [("A", (100, 30))])
    (fun _ => 15) (fun _ => 15)).2.2.1
  have hmem : (("A", 100, 30, []) : RankedEntry) ∈
      (get_top_stocks 9 5 1 (fun _ => .good [("A", (100, 30))])
        (fun _ => 15) (fun _ => 15)).1 := by
    simp [get_top_stocks, rankStocks, aggLoop, runAgg, stepAgg, initAgg,
      fetch_stock_data, fetchAttempts, lookupKV, get_valid_date,
      adjustToWeekday_eq, mergeRows, dictAdd, ensureKey, unionKeys,
      appendFail, sortByBuyDesc, insertByBuyDesc, stocksOf]
  exact (h _ hmem).2.2.2

end Stock

namespace Stock

/-- One daily bar of the STOCK_DAY response after the ROC-to-western date
rewrite and close-price parsing (taiwan_stock_analysis.py lines 118-120):
a comparable date value and the closing price.  The zero-padded
`YYYY/MM/DD` strings the code compares lexicographically order exactly like
these date values. -/
structure Bar : Type where
  date : ℤ
  close : ℚ
deriving DecidableEq

/-- Outcome of one STOCK_DAY request in `get_stock_price_change`
(lines 113-134): parsed rows (`stat == 'OK'`), or anything else — a non-OK
`stat` or an exception — which the loop retries. -/
inductive PriceResp : Type
  | bars (rows : List Bar)
  | err
deriving DecidableEq

/-- One attempt of `get_stock_price_change` (lines 113-134): on a parsed
response, keep the bars with date ≥ `start_date = end_date - (days + 5)`
(lines 108, 122); if at least two remain, the start price is
`iloc[-min(len(df), days)]` — the row `min(count, days)` positions from the
end, with Python's `-0` meaning index 0 — and the result is
`(end - start) / start * 100` (lines 123-128).  A zero start price raises
`ZeroDivisionError` inside the `try`, which the `except` treats as a retry,
as do a filtered length below two and a non-OK response. -/
def price_attempt (today : ℤ) (days : ℕ) (r : PriceResp) : Option ℚ :=
  match r with
  | .err => none
  | .bars rows =>
    let f := rows.filter (fun b => decide (today - ((days : ℤ) + 5) ≤ b.date))
    if 2 ≤ f.length then
      let m := min f.length days
      let sp := (f.getD ((f.length - m) % f.length) ⟨0, 0⟩).close
      let ep := (f.getD (f.length - 1) ⟨0, 0⟩).close
      if sp = 0 then none
      else some ((ep - sp) / sp * 100)
    else none

/-- The `for attempt in range(max_retries)` loop of `get_stock_price_change`
with `max_retries = 5` (lines 111-136), fuelled by the remaining attempts;
`resp a` is the response of attempt `a` (the URL is the same each time).
The `random.uniform(5, 10)` sleeps between attempts are untimed here. -/
def priceLoop (resp : ℕ → PriceResp) (today : ℤ) (days : ℕ) :
    ℕ → ℕ → ℚ
  | 0, _ => 0
  | fuel + 1, a =>
    match price_attempt today days (resp a) with
    | some c => c
    | none => priceLoop resp today days fuel (a + 1)

/-- `get_stock_price_change(stock_id, days)` (lines 106-137): up to 5
attempts, and `0.0` when every attempt fails. -/
def get_stock_price_change (resp : ℕ → PriceResp) (today : ℤ)
    (days : ℕ) : ℚ :=
  priceLoop resp today days 5 0

/-- Following the spec's words only, for comparison with the code: "filters
rows to the requested date range and computes
(lastClose − firstClose) / firstClose × 100", where firstClose is the close
of the earliest remaining row. -/
def price_change_specFormula (today : ℤ) (days : ℕ) (rows : List Bar) : ℚ :=
  let f := rows.filter (fun b => decide (today - ((days : ℤ) + 5) ≤ b.date))
  let sp := (f.getD 0 ⟨0, 0⟩).close
  let ep := (f.getD (f.length - 1) ⟨0, 0⟩).close
  (ep - sp) / sp * 100

theorem priceLoop_succ (resp : ℕ → PriceResp) (today : ℤ) (days : ℕ)
    (fuel a : ℕ) :
    priceLoop resp today days (fuel + 1) a =
      match price_attempt today days (resp a) with
      | some c => c
      | none => priceLoop resp today days fuel (a + 1) := by
  rw [priceLoop]

/-- Four bars inside the date window with closes 100, 200, 300, 400, for the
C8 counterexample with `days = 2`. -/
def c8Bars : List Bar := [⟨94, 100⟩, ⟨95, 200⟩, ⟨96, 300⟩, ⟨97, 400⟩]

/-- **C8 (counterexample).** The claim that the returned change is
`(lastClose − firstClose) / firstClose × 100` with `firstClose` the close of
the earliest remaining row is false: with `days = 2` and four filtered rows,
the code's start price is `iloc[-min(4, 2)]` — the close 300 two rows from
the end — so it returns `(400 − 300)/300 × 100 = 100/3`, while the claimed
formula over the earliest remaining row (close 100) gives 300. -/
theorem price_change_start_row_cex :
    get_stock_price_change (fun _ => .bars c8Bars) 100 2 = 100 / 3 ∧
    price_change_specFormula 100 2 c8Bars = 300 ∧
    get_stock_price_change (fun _ => .bars c8Bars) 100 2 ≠
      price_change_specFormula 100 2 c8Bars := by
  have h1 : get_stock_price_change (fun _ => .bars c8Bars) 100 2 = 100 / 3 := by
    norm_num [get_stock_price_change, priceLoop, price_attempt, c8Bars,
      List.filter, List.getD, List.get?, Nat.min_def]
  have h2 : price_change_specFormula 100 2 c8Bars = 300 := by
    norm_num [price_change_specFormula, c8Bars, List.filter, List.getD,
      List.get?]
  refine ⟨h1, h2, ?_⟩
  rw [h1, h2]
  norm_num

/-- **C8 (amended).** `get_stock_price_change` filters the fetched daily bars
to the requested date range and, when an attempt parses with at least two
remaining rows and a non-zero start close, returns
`(lastClose − startClose) / startClose × 100`, where `startClose` is the
close of the row `min(count, days)` positions from the end of the filtered
rows — the earliest remaining row only when at most `days` rows remain; it
returns `0.0` when all 5 retry attempts fail to produce a computation
(non-OK response, fewer than two remaining data points, or a zero start
close). -/
theorem get_stock_price_change_spec (resp : ℕ → PriceResp) (today : ℤ)
    (days : ℕ) :
    (∀ rows, resp 0 = .bars rows →
      ∀ f, f = rows.filter
          (fun b => decide (today - ((days : ℤ) + 5) ≤ b.date)) →
        2 ≤ f.length →
        (f.getD ((f.length - min f.length days) % f.length) ⟨0, 0⟩).close ≠
          0 →
        get_stock_price_change resp today days =
          ((f.getD (f.length - 1) ⟨0, 0⟩).close -
              (f.getD ((f.length - min f.length days) % f.length)
                ⟨0, 0⟩).close) /
            (f.getD ((f.length - min f.length days) % f.length)
              ⟨0, 0⟩).close * 100) ∧
    ((∀ a, a < 5 → price_attempt today days (resp a) = none) →
      get_stock_price_change resp today days = 0) := by
  constructor
  · intro rows h0 f hf h2 hsp
    have hatt : price_attempt today days (resp 0) =
        some (((f.getD (f.length - 1) ⟨0, 0⟩).close -
            (f.getD ((f.length - min f.length days) % f.length)
              ⟨0, 0⟩).close) /
          (f.getD ((f.length - min f.length days) % f.length)
            ⟨0, 0⟩).close * 100) := by
      rw [h0, price_attempt]
      simp only [← hf]
      rw [if_pos h2, if_neg hsp]
    rw [get_stock_price_change, show (5 : ℕ) = 4 + 1 from rfl,
      priceLoop_succ, hatt]
  · intro hall
    have h0 := hall 0 (by omega)
    have h1 := hall 1 (by omega)
    have h2 := hall 2 (by omega)
    have h3 := hall 3 (by omega)
    have h4 := hall 4 (by omega)
    simp [get_stock_price_change, priceLoop, h0, h1, h2, h3, h4]

/-- Witness for `get_stock_price_change_spec`: on the four-bar response the
computed change is 100/3, and with every attempt failing the result is 0. -/
theorem get_stock_price_change_spec_witness :
    get_stock_price_change (fun _ => .bars c8Bars) 100 2 = 100 / 3 ∧
    get_stock_price_change (fun _ => PriceResp.err) 100 2 = 0 := by
  constructor
  · have h := (get_stock_price_change_spec (fun _ => .bars c8Bars) 100 2).1
      c8Bars rfl _ rfl (by decide) (by decide)
    rw [h]
    norm_num [c8Bars, List.filter, List.getD, List.get?, Nat.min_def]
  · exact (get_stock_price_change_spec (fun _ => PriceResp.err) 100 2).2
      (fun a _ => rfl)

end Stock

namespace Stock

/-- Outcome of one STOCK_DAY request in `get_stock_info`
(taiwan_stock_analysis.py lines 43-63): a response from which the (code,
name, last close) triple was parsed — `stat == 'OK'`, a title splitting into
at least two parts, and a parsable close in the last data row — or anything
else (non-OK `stat`, short title, exception), which the loop retries. -/
inductive InfoResp : Type
  | parsed (code name : String) (close : ℚ)
  | bad
deriving DecidableEq

/-- The inner `for attempt in range(max_retries)` loop of `get_stock_info`
with `max_retries = 5` (lines 43-65), fuelled by the remaining attempts;
`resp a` is the parse outcome of attempt `a`.  The `random.uniform(5, 10)`
sleeps between attempts are untimed here. -/
def infoAttempts (resp : ℕ → InfoResp) : ℕ → ℕ → Option (String × String × ℚ)
  | 0, _ => none
  | fuel + 1, a =>
    match resp a with
    | .parsed code name close => some (code, name, close)
    | .bad => infoAttempts resp fuel (a + 1)

/-- The outer `for days_back in range(30)` loop of `get_stock_info`
(lines 39-66): each day offset determines the queried date via
`get_valid_date(days_back)` and runs up to 5 attempts; when everything fails
the fallback triple is returned. -/
def infoDays (resp : ℕ → ℕ → InfoResp) (stock_id : String) :
    ℕ → ℕ → String × String × ℚ
  | 0, _ => (stock_id, "未知", 0)
  | fuel + 1, d =>
    match infoAttempts (resp d) 5 0 with
    | some t => t
    | none => infoDays resp stock_id fuel (d + 1)

/-- `get_stock_info(stock_id)` (lines 38-66): 30 day offsets × 5 attempts;
`resp d a` is the parse outcome of attempt `a` for day offset `d` (the
request URL is determined by `get_valid_date today d` and the stock). -/
def get_stock_info (resp : ℕ → ℕ → InfoResp) (stock_id : String) :
    String × String × ℚ :=
  infoDays resp stock_id 30 0

theorem infoAttempts_none (resp : ℕ → InfoResp) :
    ∀ (fuel a : ℕ), (∀ j, j < fuel → resp (a + j) = .bad) →
      infoAttempts resp fuel a = none
  | 0, a, _ => rfl
  | fuel + 1, a, h => by
    rw [infoAttempts]
    have h0 := h 0 (by omega)
    rw [Nat.add_zero] at h0
    rw [h0]
    exact infoAttempts_none resp fuel (a + 1) (fun j hj => by
      have := h (j + 1) (by omega)
      rwa [show a + (j + 1) = a + 1 + j by ring] at this)

theorem infoDays_fallback (resp : ℕ → ℕ → InfoResp) (stock_id : String) :
    ∀ (fuel d : ℕ), (∀ j, j < fuel → ∀ a, a < 5 → resp (d + j) a = .bad) →
      infoDays resp stock_id fuel d = (stock_id, "未知", 0)
  | 0, d, _ => rfl
  | fuel + 1, d, h => by
    rw [infoDays]
    have hnone : infoAttempts (resp d) 5 0 = none := by
      apply infoAttempts_none (resp d) 5 0
      intro j hj
      have := h 0 (by omega) j hj
      rw [Nat.add_zero] at this
      rwa [Nat.zero_add]
    rw [hnone]
    exact infoDays_fallback resp stock_id fuel (d + 1) (fun j hj a ha => by
      have := h (j + 1) (by omega) a ha
      rwa [show d + (j + 1) = d + 1 + j by ring] at this)

/-- **C9.** For every stock identifier, when every one of the 30 day offsets
in the lookback window and every one of its 5 retry attempts fails to yield a
usable response, `get_stock_info` returns the fallback triple
`(stock_id, "未知", 0.0)`.  The embedding is a total function, so this is a
soft return value, not an exception. -/
theorem get_stock_info_fallback (resp : ℕ → ℕ → InfoResp) (stock_id : String)
    (h : ∀ d, d < 30 → ∀ a, a < 5 → resp d a = .bad) :
    get_stock_info resp stock_id = (stock_id, "未知", 0) := by
  rw [get_stock_info]
  exact infoDays_fallback resp stock_id 30 0 (fun j hj a ha => by
    have := h j (by omega) a ha
    rwa [Nat.zero_add])

/-- Witness for `get_stock_info_fallback`: the all-failing oracle yields the
fallback triple for stock 2330. -/
theorem get_stock_info_fallback_witness :
    get_stock_info (fun _ _ => .bad) "2330" = ("2330", "未知", 0) :=
  get_stock_info_fallback (fun _ _ => .bad) "2330" (fun _ _ _ _ => rfl)

end Stock
